import Mathlib

/-!
Verification development for the FetchXML pagination and result-materialization
engine of the powerplatform-dataverse-client library.

The Rust sources are shallowly embedded:
  * Rust `&str` / `String` values are modelled as `List Char` (`Str` below).
    The source only slices at boundaries it discovered by searching, so byte
    indices and character indices agree on the inputs of interest; the
    embedding works uniformly at the character level.
  * `Result<T, String>` becomes `Except Err T`, where `Err` is an inductive
    enumerating the distinct error messages produced by the source.
  * The HTTP transport is modelled by a fixed sequence of JSON page responses:
    each request issued by the paging driver consumes the next response in the
    sequence, and the driver additionally records the query text of every
    request it issues (the paging loops are otherwise deterministic).
  * `serde_json::Value` becomes the inductive `Json`; its number type keeps the
    three-way split (non-negative integer / negative integer / float) of
    `serde_json::Number`.  Float payloads are kept abstract as the exact
    integer they came from, since no claim depends on f64 rounding, only on
    which variant of the row value is produced.
-/

namespace PPDV

/-- Rust strings, modelled as lists of characters. -/
abbrev Str := List Char

/-- Convert a Lean string literal to the model type. -/
def toL (s : String) : Str := s.toList

/-- The double-quote character. -/
def dq : Char := Char.ofNat 34

/-- The single-quote (apostrophe) character. -/
def sq : Char := Char.ofNat 39

/-- Decidable test that `pat` is a prefix of `txt`. -/
def isPfx : Str → Str → Bool
  | [], _ => true
  | _ :: _, [] => false
  | a :: as_, b :: bs => a = b && isPfx as_ bs

/-- `str::find` with a string pattern: index of the first occurrence of
`pat` in `txt`, if any. -/
def findSub (pat : Str) : Str → Option Nat
  | [] => if isPfx pat [] then some 0 else none
  | c :: rest =>
    if isPfx pat (c :: rest) then some 0
    else (findSub pat rest).map (· + 1)

/-- `str::find` with a char pattern: index of the first occurrence of the
character `ch`, if any. -/
def charFind (ch : Char) : Str → Option Nat
  | [] => none
  | c :: rest => if c = ch then some 0 else (charFind ch rest).map (· + 1)

/-- `str::contains` with a string pattern. -/
def containsSub (txt pat : Str) : Bool := (findSub pat txt).isSome

/-- The error values produced by the engine; one constructor per distinct
error message built in the Rust source. -/
inductive Err where
  /-- "FetchXML must start with a fetch element" -/
  | missingFetchTag : Err
  /-- "FetchXML fetch element is not closed" -/
  | tagNotClosed : Err
  /-- "Invalid fetch attribute ..." (malformed quoting for the named attribute) -/
  | invalidAttr (name : Str) : Err
  /-- "Request failed: ..." (transport failure: no further response available) -/
  | requestFailed : Err
  /-- "Invalid response from Dataverse" -/
  | invalidResponse : Err
  /-- "Unable to parse dataverse value: ..." -/
  | unableToParse : Err
  deriving DecidableEq, Repr

instance {ε α : Type} [DecidableEq ε] [DecidableEq α] : DecidableEq (Except ε α) := fun x y =>
  match x, y with
  | .ok a, .ok b =>
    if h : a = b then .isTrue (by rw [h]) else .isFalse (by intro hc; cases hc; exact h rfl)
  | .error a, .error b =>
    if h : a = b then .isTrue (by rw [h]) else .isFalse (by intro hc; cases hc; exact h rfl)
  | .ok _, .error _ => .isFalse (by intro hc; cases hc)
  | .error _, .ok _ => .isFalse (by intro hc; cases hc)

/-- `str::replace` for a single-character pattern: every occurrence of `t`
is replaced by `rep`. -/
def replaceChar (t : Char) (rep : Str) : Str → Str
  | [] => []
  | c :: rest => if c = t then rep ++ replaceChar t rep rest else c :: replaceChar t rep rest

/-- `escape_xml_attribute` from fetchxml.rs: the five sequential
single-character replaces, in source order. -/
def escape_xml_attribute (value : Str) : Str :=
  replaceChar sq (toL "&apos;")
    (replaceChar dq (toL "&quot;")
      (replaceChar '>' (toL "&gt;")
        (replaceChar '<' (toL "&lt;")
          (replaceChar '&' (toL "&amp;") value))))

/-- The decimal digit characters used by integer formatting. -/
def digitCh : Nat → Char
  | 0 => '0' | 1 => '1' | 2 => '2' | 3 => '3' | 4 => '4'
  | 5 => '5' | 6 => '6' | 7 => '7' | 8 => '8' | 9 => '9'
  | _ + 10 => '?'

/-- Decimal rendering, on explicit fuel so that the kernel can evaluate it;
`fuel ≥ n` always suffices. -/
def natToLAux : Nat → Nat → Str
  | 0, _ => []
  | fuel + 1, n =>
    if n < 10 then [digitCh n]
    else natToLAux fuel (n / 10) ++ [digitCh (n % 10)]

/-- Decimal rendering of a natural number (Rust `to_string`). -/
def natToL (n : Nat) : Str := natToLAux (n + 1) n

/-- Decimal rendering of an integer (Rust `i32::to_string` / `i64::to_string`). -/
def intToL (i : Int) : Str :=
  if i < 0 then '-' :: natToL (-i).toNat else natToL i.toNat

/-- `fetch_tag_has_attr` from fetchxml.rs: whether the root fetch tag
contains the text `name=`. -/
def fetch_tag_has_attr (fetchxml : Str) (name : Str) : Except Err Bool :=
  match findSub (toL "<fetch") fetchxml with
  | none => .error .missingFetchTag
  | some fetchStart =>
    match charFind '>' (fetchxml.drop fetchStart) with
    | none => .error .tagNotClosed
    | some d =>
      let tag := (fetchxml.drop fetchStart).take (d + 1)
      .ok (containsSub tag (name ++ ['=']))

/-- `upsert_fetch_attr` from fetchxml.rs: replace the value of attribute
`name` inside the root fetch tag if the text `name=` occurs there (keeping
the original quote character), otherwise insert ` name="value"` right
before the tag's closing `>`.  All indices mirror the source: `ai`,
`qi`, `vs`, `ve` are relative to the extracted tag, and the final splices
are performed on the whole string at `fetchStart + _`. -/
def upsert_fetch_attr (fetchxml : Str) (name : Str) (value : Str) : Except Err Str :=
  match findSub (toL "<fetch") fetchxml with
  | none => .error .missingFetchTag
  | some fetchStart =>
    match charFind '>' (fetchxml.drop fetchStart) with
    | none => .error .tagNotClosed
    | some d =>
      let tag := (fetchxml.drop fetchStart).take (d + 1)
      let attrKey := name ++ ['=']
      match findSub attrKey tag with
      | some ai =>
        let qi := ai + attrKey.length
        match tag[qi]? with
        | none => .error (.invalidAttr name)
        | some qc =>
          if qc = dq ∨ qc = sq then
            let vs := qi + 1
            match charFind qc (tag.drop vs) with
            | none => .error (.invalidAttr name)
            | some e =>
              let ve := e + vs
              .ok (fetchxml.take (fetchStart + vs) ++ value ++ fetchxml.drop (fetchStart + ve))
          else .error (.invalidAttr name)
      | none =>
        .ok (fetchxml.take (fetchStart + d) ++ [' '] ++ name ++ ['=', dq] ++ value ++ [dq]
              ++ fetchxml.drop (fetchStart + d))

/-- `apply_paging` from fetchxml.rs. -/
def apply_paging (fetchxml : Str) (page : Int) (pagingCookie : Option Str) : Except Err Str := do
  let updated ← upsert_fetch_attr fetchxml (toL "page") (intToL page)
  match pagingCookie with
  | none => pure updated
  | some cookie => upsert_fetch_attr updated (toL "paging-cookie") (escape_xml_attribute cookie)

/-- `ensure_aggregate_page_size` from fetchxml.rs. -/
def ensure_aggregate_page_size (fetchxml : Str) (aggregatePageSize : Int) : Except Err Str :=
  if ¬ containsSub fetchxml (toL "aggregate=\"true\"") then .ok fetchxml
  else do
    if ← fetch_tag_has_attr fetchxml (toL "count") then pure fetchxml
    else upsert_fetch_attr fetchxml (toL "count") (intToL aggregatePageSize)

/-! ## JSON model (serde_json::Value) and parse.rs -/

/-- The number variants of `serde_json::Number`: a non-negative integer
(internally `u64`), a negative integer (internally `i64`), or a float.
The float payload is kept abstract as an integer tag, since no claim
depends on f64 arithmetic, only on which row-value variant is produced. -/
inductive JNum where
  | pos (n : Nat) : JNum
  | neg (i : Int) : JNum
  | flt (x : Int) : JNum
  deriving DecidableEq, Repr

/-- `serde_json::Value`.  Objects are association lists in iteration order. -/
inductive Json where
  | null : Json
  | bool (b : Bool) : Json
  | num (n : JNum) : Json
  | str (s : Str) : Json
  | arr (xs : List Json) : Json
  | obj (fs : List (Str × Json)) : Json

/-- `serde_json::Map::get`: value of the first binding of `k`. -/
def objGet : List (Str × Json) → Str → Option Json
  | [], _ => none
  | (k, v) :: rest, key => if k = key then some v else objGet rest key

/-- `Value::get` on objects (None on every other variant). -/
def Json.get (j : Json) (k : Str) : Option Json :=
  match j with
  | .obj fs => objGet fs k
  | _ => none

/-- `Value::as_str`. -/
def Json.asStr : Json → Option Str
  | .str s => some s
  | _ => none

/-- ASCII lower-casing of one character. -/
def asciiLower (c : Char) : Char :=
  if 'A' ≤ c ∧ c ≤ 'Z' then Char.ofNat (c.toNat + 32) else c

/-- `str::eq_ignore_ascii_case`. -/
def eqIgnoreAsciiCase (a b : Str) : Bool :=
  a.map asciiLower = b.map asciiLower

/-- The morerecords annotation key. -/
def moreRecordsKey : Str := toL "@Microsoft.Dynamics.CRM.morerecords"

/-- The paging-cookie annotation key. -/
def pagingCookieKey : Str := toL "@Microsoft.Dynamics.CRM.fetchxmlpagingcookie"

/-- `parse_more_records` from parse.rs. -/
def parse_more_records (json : Json) : Bool :=
  match json.get moreRecordsKey with
  | some (.bool b) => b
  | some (.str s) => eqIgnoreAsciiCase s (toL "true")
  | _ => false

/-- Value of an ASCII hex digit. -/
def hexVal (c : Char) : Option Nat :=
  if '0' ≤ c ∧ c ≤ '9' then some (c.toNat - 48)
  else if 'a' ≤ c ∧ c ≤ 'f' then some (c.toNat - 87)
  else if 'A' ≤ c ∧ c ≤ 'F' then some (c.toNat - 55)
  else none

/-- Modelled from the urlencoding crate (a dependency, not part of src/):
`urlencoding::decode` percent-decodes every `%XX` hex pair, passes other
characters (and malformed `%` sequences) through unchanged, and fails only
on invalid UTF-8, which the character-level model cannot produce. -/
def urldecode : Str → Option Str
  | [] => some []
  | [c] => (urldecode []).map (fun d => c :: d)
  | [c, a] => (urldecode [a]).map (fun d => c :: d)
  | c :: a :: b :: rest =>
    if c = '%' then
      match hexVal a, hexVal b with
      | some x, some y => (urldecode rest).map (fun d => Char.ofNat (16 * x + y) :: d)
      | _, _ => (urldecode (a :: b :: rest)).map (fun d => c :: d)
    else (urldecode (a :: b :: rest)).map (fun d => c :: d)

/-- `extract_paging_cookie` from parse.rs. -/
def extract_paging_cookie (json : Json) : Option Str := do
  let cookieElement ← (json.get pagingCookieKey).bind Json.asStr
  let key := toL "pagingcookie=\""
  let i ← findSub key cookieElement
  let start := i + key.length
  let e ← charFind dq (cookieElement.drop start)
  let encoded := (cookieElement.drop start).take e
  let decodedOnce ← urldecode encoded
  let decodedTwice ← urldecode decodedOnce
  pure decodedTwice

/-- The row value variants of entity.rs (`entity::Value`).  The float
payload is the same abstract tag as in `JNum`. -/
inductive RowValue where
  | int (i : Int) : RowValue
  | float (x : Int) : RowValue
  | str (s : Str) : RowValue
  | bool (b : Bool) : RowValue
  | null : RowValue
  deriving DecidableEq, Repr

/-- Entity attribute maps: `HashMap<String, Value>` modelled as an
association list whose `insert` replaces in place, so lookups agree with
the hash map. -/
abbrev AttrMap := List (Str × RowValue)

/-- `HashMap::insert`: replace the binding of `k` if present, else append. -/
def insertAttr : AttrMap → Str → RowValue → AttrMap
  | [], k, v => [(k, v)]
  | (k', v') :: rest, k, v =>
    if k' = k then (k, v) :: rest else (k', v') :: insertAttr rest k v

/-- `HashMap::get`. -/
def lookupAttr : AttrMap → Str → Option RowValue
  | [], _ => none
  | (k', v') :: rest, k => if k' = k then some v' else lookupAttr rest k

/-- A Dataverse entity record (entity.rs). -/
structure Entity where
  attributes : AttrMap
  deriving DecidableEq, Repr

/-- `i64::MAX`. -/
def i64Max : Nat := 2 ^ 63 - 1

/-- The `u64 as f64` cast feeding the Float variant; kept abstract as the
exact source integer (the cast is lossy in Rust, but no claim depends on
the rounded value, only on the variant produced). -/
def f64ofU64 (n : Nat) : Int := n

/-- `Value::is_null`. -/
def Json.isNull : Json → Bool
  | .null => true
  | _ => false

/-- `Value::is_i64` (serde_json): true for a negative integer, and for a
non-negative integer that fits in `i64`. -/
def Json.isI64 : Json → Bool
  | .num (.pos n) => n ≤ i64Max
  | .num (.neg _) => true
  | _ => false

/-- `Value::as_i64`. -/
def Json.asI64 : Json → Option Int
  | .num (.pos n) => if n ≤ i64Max then some n else none
  | .num (.neg i) => some i
  | _ => none

/-- `Value::is_u64` (serde_json): true exactly for non-negative integers. -/
def Json.isU64 : Json → Bool
  | .num (.pos _) => true
  | _ => false

/-- `Value::as_u64`. -/
def Json.asU64 : Json → Option Nat
  | .num (.pos n) => some n
  | _ => none

/-- `Value::is_f64` (serde_json): true only for the float representation. -/
def Json.isF64 : Json → Bool
  | .num (.flt _) => true
  | _ => false

/-- `Value::as_f64` restricted to the float representation (the cascade
only reaches it there). -/
def Json.asF64 : Json → Option Int
  | .num (.flt x) => some x
  | _ => none

/-- `Value::is_string`. -/
def Json.isString : Json → Bool
  | .str _ => true
  | _ => false

/-- `Value::is_boolean`. -/
def Json.isBoolean : Json → Bool
  | .bool _ => true
  | _ => false

/-- `Value::as_bool`. -/
def Json.asBool : Json → Option Bool
  | .bool b => some b
  | _ => none

/-- `i64::try_from(u64)`: succeeds exactly when the value fits. -/
def i64TryFrom (n : Nat) : Option Int :=
  if n ≤ i64Max then some (n : Int) else none

/-- `add_attribute` from parse.rs: the is_null / is_i64 / is_u64 / is_f64 /
is_string / is_boolean cascade, with each accessor's `ok_or` error path.
Arrays and objects fall through every test, insert nothing, and still
succeed (the Rust function returns `Ok(true)` there). -/
def add_attribute (attributes : AttrMap) (key : Str) (value : Json) : Except Err AttrMap :=
  if value.isNull then .ok (insertAttr attributes key .null)
  else if value.isI64 then
    match value.asI64 with
    | none => .error .unableToParse
    | some i => .ok (insertAttr attributes key (.int i))
  else if value.isU64 then
    match value.asU64 with
    | none => .error .unableToParse
    | some n =>
      match i64TryFrom n with
      | some i => .ok (insertAttr attributes key (.int i))
      | none => .ok (insertAttr attributes key (.float (f64ofU64 n)))
  else if value.isF64 then
    match value.asF64 with
    | none => .error .unableToParse
    | some x => .ok (insertAttr attributes key (.float x))
  else if value.isString then
    match value.asStr with
    | none => .error .unableToParse
    | some s => .ok (insertAttr attributes key (.str s))
  else if value.isBoolean then
    match value.asBool with
    | none => .error .unableToParse
    | some b => .ok (insertAttr attributes key (.bool b))
  else .ok attributes

/-- The per-record field loop of `parse_entities_from_response`: fold the
fields through `add_attribute` in iteration order, mapping any
`add_attribute` error to the generic malformed-response error (the
`map_err` in the source). -/
def recordFold : AttrMap → List (Str × Json) → Except Err AttrMap
  | m, [] => .ok m
  | m, (k, v) :: rest =>
    match add_attribute m k v with
    | .error _ => .error .invalidResponse
    | .ok m' => recordFold m' rest

/-- Decode one element of the `value` array: it must be an object, whose
fields are folded through `add_attribute` in iteration order. -/
def entityOfRecord : Json → Except Err Entity
  | .obj fields => (recordFold [] fields).map Entity.mk
  | _ => .error .invalidResponse

/-- Decode every element of the `value` array, in order. -/
def entitiesOfArray : List Json → Except Err (List Entity)
  | [] => .ok []
  | r :: rest => do
    let e ← entityOfRecord r
    let es ← entitiesOfArray rest
    pure (e :: es)

/-- `parse_entities_from_response` from parse.rs. -/
def parse_entities_from_response (json : Json) : Except Err (List Entity) :=
  match json with
  | .obj fields =>
    match objGet fields (toL "value") with
    | some (.arr rows) => entitiesOfArray rows
    | some _ => .error .invalidResponse
    | none => .error .invalidResponse
  | _ => .error .invalidResponse

/-- `parse_record_count_from_response` from parse.rs. -/
def parse_record_count_from_response (json : Json) : Except Err Nat :=
  match json with
  | .obj fields =>
    match objGet fields (toL "value") with
    | some (.arr rows) => .ok rows.length
    | some _ => .error .invalidResponse
    | none => .error .invalidResponse
  | _ => .error .invalidResponse

/-! ## Paging driver (serviceclient.rs)

The HTTP transport is modelled by the list of JSON pages the server will
answer with, in order; issuing a request consumes the head.  Each driver
function returns the list of query texts it sent (most external logging,
URL building and headers are irrelevant to the claims and omitted)
together with the final outcome.  A request made when no response remains
is a transport failure (`Err.requestFailed`), mirroring a network error. -/

/-- `ROW_NUMBER_ATTRIBUTE` from serviceclient.rs. -/
def ROW_NUMBER_ATTRIBUTE : Str := toL "__rownum"

/-- `AGGREGATE_PAGE_SIZE` from serviceclient.rs. -/
def AGGREGATE_PAGE_SIZE : Int := 5000

/-- The row-numbering pass of the paged loop: entity at offset `off` of the
current page receives `__rownum = startIndex + off + 1`. -/
def addRowNumbers (startIndex : Nat) (es : List Entity) : List Entity :=
  es.enum.map fun p =>
    ⟨insertAttr p.2.attributes ROW_NUMBER_ATTRIBUTE (.int (startIndex + p.1 + 1))⟩

/-- The paged loop of `retrieve_multiple_fetchxml`: one iteration per
consumed response. -/
def goRows (fetchxml : Str) (page : Int) (cookie : Option Str) (acc : List Entity) :
    List Json → List Str × Except Err (List Entity)
  | [] =>
    match (ensure_aggregate_page_size fetchxml AGGREGATE_PAGE_SIZE).bind
        (fun s => apply_paging s page cookie) with
    | .error e => ([], .error e)
    | .ok fq => ([fq], .error .requestFailed)
  | j :: rest =>
    match (ensure_aggregate_page_size fetchxml AGGREGATE_PAGE_SIZE).bind
        (fun s => apply_paging s page cookie) with
    | .error e => ([], .error e)
    | .ok fq =>
      match parse_entities_from_response j with
      | .error e => ([fq], .error e)
      | .ok pageEntities =>
        let acc' := acc ++ addRowNumbers acc.length pageEntities
        if parse_more_records j then
          let next := goRows fetchxml (page + 1) (extract_paging_cookie j) acc' rest
          (fq :: next.1, next.2)
        else
          ([fq], .ok acc')

/-- The paged loop of `retrieve_multiple_fetchxml_count`. -/
def goCount (fetchxml : Str) (page : Int) (cookie : Option Str) (total : Nat) :
    List Json → List Str × Except Err Nat
  | [] =>
    match (ensure_aggregate_page_size fetchxml AGGREGATE_PAGE_SIZE).bind
        (fun s => apply_paging s page cookie) with
    | .error e => ([], .error e)
    | .ok fq => ([fq], .error .requestFailed)
  | j :: rest =>
    match (ensure_aggregate_page_size fetchxml AGGREGATE_PAGE_SIZE).bind
        (fun s => apply_paging s page cookie) with
    | .error e => ([], .error e)
    | .ok fq =>
      match parse_record_count_from_response j with
      | .error e => ([fq], .error e)
      | .ok n =>
        if parse_more_records j then
          let next := goCount fetchxml (page + 1) (extract_paging_cookie j) (total + n) rest
          (fq :: next.1, next.2)
        else
          ([fq], .ok (total + n))

/-- `retrieve_multiple_fetchxml_single`: one request with the caller's
query text, decoded once. -/
def retrieve_multiple_fetchxml_single (fetchxml : Str) (resps : List Json) :
    List Str × Except Err (List Entity) :=
  ([fetchxml],
    match resps with
    | [] => .error .requestFailed
    | j :: _ => parse_entities_from_response j)

/-- `retrieve_multiple_fetchxml` from serviceclient.rs. -/
def retrieve_multiple_fetchxml (fetchxml : Str) (resps : List Json) :
    List Str × Except Err (List Entity) :=
  match fetch_tag_has_attr fetchxml (toL "top") with
  | .error e => ([], .error e)
  | .ok true => retrieve_multiple_fetchxml_single fetchxml resps
  | .ok false => goRows fetchxml 1 none [] resps

/-- `retrieve_multiple_fetchxml_count` from serviceclient.rs. -/
def retrieve_multiple_fetchxml_count (fetchxml : Str) (resps : List Json) :
    List Str × Except Err Nat :=
  match fetch_tag_has_attr fetchxml (toL "top") with
  | .error e => ([], .error e)
  | .ok true =>
    let single := retrieve_multiple_fetchxml_single fetchxml resps
    (single.1, single.2.map List.length)
  | .ok false => goCount fetchxml 1 none 0 resps

example : fetch_tag_has_attr (toL "<fetch top=\"1\"><entity/></fetch>") (toL "top") = .ok true := by
  decide

example : fetch_tag_has_attr (toL "<foo/>") (toL "top") = .error .missingFetchTag := by decide

example :
    upsert_fetch_attr (toL "<fetch></fetch>") (toL "page") (toL "2")
      = .ok (toL "<fetch page=\"2\"></fetch>") := by decide

example :
    apply_paging (toL "<fetch></fetch>") 2 (some (toL "C&D"))
      = .ok (toL "<fetch page=\"2\" paging-cookie=\"C&amp;D\"></fetch>") := by decide

example :
    ensure_aggregate_page_size (toL "<fetch aggregate=\"true\"></fetch>") 5000
      = .ok (toL "<fetch aggregate=\"true\" count=\"5000\"></fetch>") := by decide

/-! ## Lemmas about the string-search primitives -/

theorem isPfx_append_self (p t : Str) : isPfx p (p ++ t) = true := by
  induction p with
  | nil => rfl
  | cons a as_ ih => simpa [isPfx] using ih

theorem isPfx_getElem {p t : Str} (h : isPfx p t = true) :
    ∀ k, k < p.length → t[k]? = p[k]? := by
  induction p generalizing t with
  | nil => intro k hk; simp at hk
  | cons a as_ ih =>
    cases t with
    | nil => simp [isPfx] at h
    | cons b bs =>
      simp only [isPfx, Bool.and_eq_true, decide_eq_true_eq] at h
      intro k hk
      cases k with
      | zero => simp [h.1]
      | succ k' =>
        simpa using ih h.2 k' (by simpa using hk)

theorem mem_of_isPfx {p t : Str} (h : isPfx p t = true) {c : Char} (hc : c ∈ p) : c ∈ t := by
  induction p generalizing t with
  | nil => simp at hc
  | cons a as_ ih =>
    cases t with
    | nil => simp [isPfx] at h
    | cons b bs =>
      simp only [isPfx, Bool.and_eq_true, decide_eq_true_eq] at h
      rcases List.mem_cons.1 hc with rfl | hc'
      · simp [h.1]
      · exact List.mem_cons_of_mem _ (ih h.2 hc')

theorem findSub_of_isPfx {pat txt : Str} (h : isPfx pat txt = true) :
    findSub pat txt = some 0 := by
  cases txt <;> simp [findSub, h]

theorem findSub_eq_some_iff {pat txt : Str} {i : Nat} :
    findSub pat txt = some i ↔
      isPfx pat (txt.drop i) = true ∧ ∀ j, j < i → isPfx pat (txt.drop j) = false := by
  induction txt generalizing i with
  | nil =>
    by_cases h : isPfx pat [] = true
    · simp only [findSub, h, if_true]
      constructor
      · rintro hh
        cases hh
        exact ⟨h, by omega⟩
      · rintro ⟨_, hall⟩
        by_contra hne
        have hi : 0 < i := by
          rcases Nat.eq_zero_or_pos i with rfl | hp
          · exact absurd rfl hne
          · exact hp
        have := hall 0 hi
        simp [h] at this
    · simp only [findSub, h, if_false]
      constructor
      · rintro ⟨⟩
      · rintro ⟨h1, _⟩
        simp only [List.drop_nil] at h1
        simp [h1] at h
  | cons c rest ih =>
    by_cases h : isPfx pat (c :: rest) = true
    · simp only [findSub, h, if_true]
      constructor
      · rintro hh
        cases hh
        exact ⟨h, by omega⟩
      · rintro ⟨_, hall⟩
        by_contra hne
        have hi : 0 < i := by
          rcases Nat.eq_zero_or_pos i with rfl | hp
          · exact absurd rfl hne
          · exact hp
        have := hall 0 hi
        simp [h] at this
    · simp only [findSub, h, if_false]
      constructor
      · intro hh
        rcases Option.map_eq_some'.1 hh with ⟨i', hi', rfl⟩
        rcases ih.1 hi' with ⟨h1, h2⟩
        refine ⟨by simpa using h1, ?_⟩
        intro j hj
        cases j with
        | zero =>
          simp only [Bool.not_eq_true] at h
          simpa using h
        | succ j' => simpa using h2 j' (by omega)
      · rintro ⟨h1, h2⟩
        cases i with
        | zero =>
          simp only [List.drop_zero] at h1
          exact absurd h1 h
        | succ i' =>
          have : findSub pat rest = some i' := by
            refine ih.2 ⟨by simpa using h1, ?_⟩
            intro j hj
            simpa using h2 (j + 1) (by omega)
          simp [this]

theorem findSub_none_of_missing {pat txt : Str} {c : Char} (hc : c ∈ pat) (ht : c ∉ txt) :
    findSub pat txt = none := by
  cases hfs : findSub pat txt with
  | none => rfl
  | some i =>
    exfalso
    have h1 := (findSub_eq_some_iff.1 hfs).1
    exact ht (List.drop_subset i txt (mem_of_isPfx h1 hc))

theorem charFind_eq_some_iff {ch : Char} {txt : Str} {i : Nat} :
    charFind ch txt = some i ↔
      txt[i]? = some ch ∧ ∀ j, j < i → txt[j]? ≠ some ch := by
  induction txt generalizing i with
  | nil => simp [charFind]
  | cons c rest ih =>
    by_cases h : c = ch
    · subst h
      simp only [charFind, if_true]
      constructor
      · rintro hh
        cases hh
        exact ⟨by simp, by omega⟩
      · rintro ⟨_, hall⟩
        by_contra hne
        have hi : 0 < i := by
          rcases Nat.eq_zero_or_pos i with rfl | hp
          · exact absurd rfl hne
          · exact hp
        exact hall 0 hi (by simp)
    · simp only [charFind, h, if_false]
      constructor
      · intro hh
        rcases Option.map_eq_some'.1 hh with ⟨i', hi', rfl⟩
        rcases ih.1 hi' with ⟨h1, h2⟩
        refine ⟨by simpa using h1, ?_⟩
        intro j hj
        cases j with
        | zero => simpa using h
        | succ j' => simpa using h2 j' (by omega)
      · rintro ⟨h1, h2⟩
        cases i with
        | zero =>
          simp only [List.getElem?_cons_zero, Option.some.injEq] at h1
          exact absurd h1 h
        | succ i' =>
          have : charFind ch rest = some i' := by
            refine ih.2 ⟨by simpa using h1, ?_⟩
            intro j hj
            simpa using h2 (j + 1) (by omega)
          simp [this]

theorem charFind_eq_none_iff {ch : Char} {txt : Str} : charFind ch txt = none ↔ ch ∉ txt := by
  induction txt with
  | nil => simp [charFind]
  | cons c rest ih =>
    by_cases h : c = ch
    · subst h; simp [charFind]
    · simp only [charFind, h, if_false, Option.map_eq_none', ih, List.mem_cons]
      constructor
      · intro hn hm
        rcases hm with rfl | hm
        · exact h rfl
        · exact hn hm
      · exact fun hn hm => hn (Or.inr hm)

theorem charFind_append_of_not_mem {ch : Char} {A : Str} (B : Str) (h : ch ∉ A) :
    charFind ch (A ++ B) = (charFind ch B).map (· + A.length) := by
  induction A with
  | nil => cases hcf : charFind ch B <;> simp [hcf]
  | cons a as_ ih =>
    have ha : a ≠ ch := fun hh => h (by simp [hh])
    have has : ch ∉ as_ := fun hh => h (by simp [hh])
    rw [List.cons_append]
    have step : charFind ch (a :: (as_ ++ B)) = (charFind ch (as_ ++ B)).map (· + 1) := by
      simp [charFind, ha]
    rw [step, ih has]
    cases hcf : charFind ch B with
    | none => simp
    | some v => simp [Nat.add_assoc]

theorem charFind_cons_self {ch : Char} {rest : Str} : charFind ch (ch :: rest) = some 0 := by
  simp [charFind]

/-! ## Character-set lemmas for escaping, digits and percent-decoding -/

theorem mem_replaceChar {c t : Char} {rep l : Str} (h : c ∈ replaceChar t rep l) :
    c ∈ rep ∨ (c ∈ l ∧ c ≠ t) := by
  induction l with
  | nil => simp [replaceChar] at h
  | cons a as_ ih =>
    by_cases ha : a = t
    · subst ha
      simp only [replaceChar, if_true] at h
      rcases List.mem_append.1 h with h1 | h2
      · exact Or.inl h1
      · rcases ih h2 with h3 | ⟨h4, h5⟩
        · exact Or.inl h3
        · exact Or.inr ⟨List.mem_cons_of_mem _ h4, h5⟩
    · simp only [replaceChar, ha, if_false, List.mem_cons] at h
      rcases h with rfl | h2
      · exact Or.inr ⟨List.mem_cons_self _ _, ha⟩
      · rcases ih h2 with h3 | ⟨h4, h5⟩
        · exact Or.inl h3
        · exact Or.inr ⟨List.mem_cons_of_mem _ h4, h5⟩

theorem not_mem_replaceChar_self {t : Char} {rep : Str} (h : t ∉ rep) (l : Str) :
    t ∉ replaceChar t rep l := by
  intro hm
  rcases mem_replaceChar hm with h1 | ⟨_, h2⟩
  · exact h h1
  · exact h2 rfl

theorem not_mem_replaceChar {c t : Char} {rep l : Str} (hrep : c ∉ rep) (hl : c ∉ l) :
    c ∉ replaceChar t rep l := by
  intro hm
  rcases mem_replaceChar hm with h1 | ⟨h2, _⟩
  · exact hrep h1
  · exact hl h2

theorem escape_no_gt (v : Str) : '>' ∉ escape_xml_attribute v := by
  unfold escape_xml_attribute
  exact not_mem_replaceChar (by decide)
    (not_mem_replaceChar (by decide) (not_mem_replaceChar_self (by decide) _))

theorem escape_no_lt (v : Str) : '<' ∉ escape_xml_attribute v := by
  unfold escape_xml_attribute
  exact not_mem_replaceChar (by decide)
    (not_mem_replaceChar (by decide)
      (not_mem_replaceChar (by decide) (not_mem_replaceChar_self (by decide) _)))

theorem escape_no_dq (v : Str) : dq ∉ escape_xml_attribute v := by
  unfold escape_xml_attribute
  exact not_mem_replaceChar (by decide) (not_mem_replaceChar_self (by decide) _)

theorem escape_no_sq (v : Str) : sq ∉ escape_xml_attribute v :=
  not_mem_replaceChar_self (by decide) _

theorem escape_no_pct {v : Str} (h : '%' ∉ v) : '%' ∉ escape_xml_attribute v := by
  unfold escape_xml_attribute
  exact not_mem_replaceChar (by decide)
    (not_mem_replaceChar (by decide)
      (not_mem_replaceChar (by decide)
        (not_mem_replaceChar (by decide) (not_mem_replaceChar (by decide) h))))

/-- The characters that can occur in a rendered natural number. -/
def digitChars : Str := ['0', '1', '2', '3', '4', '5', '6', '7', '8', '9']

/-- The characters that can occur in a rendered integer. -/
def numChars : Str := '-' :: digitChars

theorem digitCh_mem {d : Nat} (h : d < 10) : digitCh d ∈ digitChars := by
  interval_cases d <;> decide

theorem mem_natToLAux {c : Char} : ∀ {fuel n : Nat}, c ∈ natToLAux fuel n → c ∈ digitChars := by
  intro fuel
  induction fuel with
  | zero => intro n h; simp [natToLAux] at h
  | succ fuel ih =>
    intro n h
    by_cases hn : n < 10
    · simp only [natToLAux, hn, if_true, List.mem_singleton] at h
      subst h
      exact digitCh_mem hn
    · simp only [natToLAux, hn, if_false] at h
      rcases List.mem_append.1 h with h1 | h2
      · exact ih h1
      · rw [List.mem_singleton] at h2
        subst h2
        exact digitCh_mem (Nat.mod_lt _ (by omega))

theorem mem_intToL {c : Char} {i : Int} (h : c ∈ intToL i) : c ∈ numChars := by
  unfold intToL at h
  split at h
  · rcases List.mem_cons.1 h with rfl | h2
    · exact List.mem_cons_self _ _
    · exact List.mem_cons_of_mem _ (mem_natToLAux h2)
  · exact List.mem_cons_of_mem _ (mem_natToLAux h)

theorem not_mem_intToL {c : Char} {i : Int} (hc : c ∉ numChars) : c ∉ intToL i :=
  fun h => hc (mem_intToL h)

theorem urldecode_of_no_pct : ∀ {l : Str}, '%' ∉ l → urldecode l = some l := by
  intro l
  induction l using urldecode.induct with
  | case1 => intro _; rfl
  | case2 c _ => intro _; simp [urldecode]
  | case3 c a ih =>
    intro h
    have htail : '%' ∉ [a] := fun hm => h (List.mem_cons_of_mem _ hm)
    simp [urldecode, ih htail]
  | case4 a b rest y x hy hx ih =>
    intro h
    exact absurd (List.mem_cons_self _ _) h
  | case5 a b rest hxy ih =>
    intro h
    exact absurd (List.mem_cons_self _ _) h
  | case6 c a b rest hcp ih =>
    intro h
    have htail : '%' ∉ a :: b :: rest := fun hm => h (List.mem_cons_of_mem _ hm)
    simp [urldecode, hcp, ih htail]

/-! ## Attribute-map and decoder lemmas -/

theorem lookupAttr_insertAttr_same (m : AttrMap) (k : Str) (v : RowValue) :
    lookupAttr (insertAttr m k v) k = some v := by
  induction m with
  | nil => simp [insertAttr, lookupAttr]
  | cons kv rest ih =>
    obtain ⟨k', v'⟩ := kv
    by_cases h : k' = k
    · simp [insertAttr, lookupAttr, h]
    · simp [insertAttr, lookupAttr, h, ih]

theorem lookupAttr_insertAttr_other (m : AttrMap) {k k' : Str} (v : RowValue) (h : k' ≠ k) :
    lookupAttr (insertAttr m k v) k' = lookupAttr m k' := by
  have hne : ¬ k = k' := fun hh => h hh.symm
  induction m with
  | nil => simp [insertAttr, lookupAttr, hne]
  | cons kv rest ih =>
    obtain ⟨k0, v0⟩ := kv
    by_cases h0 : k0 = k
    · subst h0
      simp [insertAttr, lookupAttr, hne]
    · simp [insertAttr, lookupAttr, h0, ih]

/-- JSON values on which the coercion cascade inserts no attribute. -/
def Json.isContainer : Json → Bool
  | .arr _ => true
  | .obj _ => true
  | _ => false

theorem add_attribute_container {m : AttrMap} {k : Str} {v : Json}
    (h : v.isContainer = true) : add_attribute m k v = .ok m := by
  cases v <;> simp_all [Json.isContainer, add_attribute, Json.isNull, Json.isI64, Json.isU64,
    Json.isF64, Json.isString, Json.isBoolean]

theorem add_attribute_result (m : AttrMap) (k : Str) (v : Json) {m' : AttrMap}
    (h : add_attribute m k v = .ok m') :
    m' = m ∨ ∃ w, m' = insertAttr m k w := by
  cases v with
  | null =>
    refine Or.inr ⟨.null, ?_⟩
    simp only [add_attribute, Json.isNull, if_true, Except.ok.injEq] at h
    exact h.symm
  | bool b =>
    refine Or.inr ⟨.bool b, ?_⟩
    simp only [add_attribute, Json.isNull, Json.isI64, Json.isU64, Json.isF64, Json.isString,
      Json.isBoolean, Json.asBool, Bool.false_eq_true, if_false, if_true,
      Except.ok.injEq] at h
    exact h.symm
  | str s =>
    refine Or.inr ⟨.str s, ?_⟩
    simp only [add_attribute, Json.isNull, Json.isI64, Json.isU64, Json.isF64, Json.isString,
      Json.asStr, Bool.false_eq_true, if_false, if_true, Except.ok.injEq] at h
    exact h.symm
  | arr xs =>
    refine Or.inl ?_
    have := add_attribute_container (m := m) (k := k) (v := Json.arr xs) rfl
    rw [this] at h
    cases h
    rfl
  | obj fs =>
    refine Or.inl ?_
    have := add_attribute_container (m := m) (k := k) (v := Json.obj fs) rfl
    rw [this] at h
    cases h
    rfl
  | num n =>
    cases n with
    | pos n =>
      by_cases hn : n ≤ i64Max
      · refine Or.inr ⟨.int n, ?_⟩
        simp only [add_attribute, Json.isNull, Json.isI64, Json.asI64, hn, decide_True,
          if_true, if_false, Bool.false_eq_true, Except.ok.injEq] at h
        exact h.symm
      · refine Or.inr ⟨.float (f64ofU64 n), ?_⟩
        simp only [add_attribute, Json.isNull, Json.isI64, Json.isU64, Json.asU64, i64TryFrom,
          hn, decide_False, if_true, if_false, Bool.false_eq_true, Except.ok.injEq] at h
        exact h.symm
    | neg i =>
      refine Or.inr ⟨.int i, ?_⟩
      simp only [add_attribute, Json.isNull, Json.isI64, Json.asI64, Bool.false_eq_true,
        if_false, if_true, Except.ok.injEq] at h
      exact h.symm
    | flt x =>
      refine Or.inr ⟨.float x, ?_⟩
      simp only [add_attribute, Json.isNull, Json.isI64, Json.isU64, Json.isF64, Json.asF64,
        Bool.false_eq_true, if_false, if_true, Except.ok.injEq] at h
      exact h.symm

theorem add_attribute_ok (m : AttrMap) (k : Str) (v : Json) :
    ∃ m', add_attribute m k v = .ok m' := by
  cases v with
  | null => exact ⟨insertAttr m k .null, by simp [add_attribute, Json.isNull]⟩
  | bool b =>
    exact ⟨insertAttr m k (.bool b), by
      simp [add_attribute, Json.isNull, Json.isI64, Json.isU64, Json.isF64, Json.isString,
        Json.isBoolean, Json.asBool]⟩
  | str s =>
    exact ⟨insertAttr m k (.str s), by
      simp [add_attribute, Json.isNull, Json.isI64, Json.isU64, Json.isF64, Json.isString,
        Json.asStr]⟩
  | arr xs => exact ⟨m, add_attribute_container rfl⟩
  | obj fs => exact ⟨m, add_attribute_container rfl⟩
  | num n =>
    cases n with
    | pos n =>
      by_cases hn : n ≤ i64Max
      · exact ⟨insertAttr m k (.int n), by
          simp [add_attribute, Json.isNull, Json.isI64, Json.asI64, hn]⟩
      · exact ⟨insertAttr m k (.float (f64ofU64 n)), by
          simp [add_attribute, Json.isNull, Json.isI64, Json.isU64, Json.asU64, i64TryFrom, hn]⟩
    | neg i =>
      exact ⟨insertAttr m k (.int i), by
        simp [add_attribute, Json.isNull, Json.isI64, Json.asI64]⟩
    | flt x =>
      exact ⟨insertAttr m k (.float x), by
        simp [add_attribute, Json.isNull, Json.isI64, Json.isU64, Json.isF64, Json.asF64]⟩

theorem add_attribute_lookup_other {m m' : AttrMap} {k k' : Str} {v : Json}
    (hadd : add_attribute m k' v = .ok m') (h : k ≠ k') :
    lookupAttr m' k = lookupAttr m k := by
  rcases add_attribute_result m k' v hadd with rfl | ⟨w, rfl⟩
  · rfl
  · exact lookupAttr_insertAttr_other m w h

theorem recordFold_ok (fields : List (Str × Json)) : ∀ m, ∃ m', recordFold m fields = .ok m' := by
  induction fields with
  | nil => intro m; exact ⟨m, rfl⟩
  | cons kv rest ih =>
    intro m
    obtain ⟨k, v⟩ := kv
    obtain ⟨m1, hm1⟩ := add_attribute_ok m k v
    obtain ⟨m', hm'⟩ := ih m1
    exact ⟨m', by simp [recordFold, hm1, hm']⟩

theorem recordFold_lookup_none {k : Str} :
    ∀ (fields : List (Str × Json)) (m m' : AttrMap),
    (∀ v, (k, v) ∈ fields → v.isContainer = true) →
    lookupAttr m k = none →
    recordFold m fields = .ok m' →
    lookupAttr m' k = none := by
  intro fields
  induction fields with
  | nil =>
    intro m m' _ hm hrec
    cases hrec
    exact hm
  | cons kv rest ih =>
    intro m m' hcont hm hrec
    obtain ⟨k0, v0⟩ := kv
    obtain ⟨m1, hm1⟩ := add_attribute_ok m k0 v0
    rw [recordFold, hm1] at hrec
    have hm1lookup : lookupAttr m1 k = none := by
      by_cases hk : k = k0
      · subst hk
        have hcv : v0.isContainer = true := hcont v0 (List.mem_cons_self _ _)
        rw [add_attribute_container hcv] at hm1
        cases hm1
        exact hm
      · rw [add_attribute_lookup_other hm1 hk]
        exact hm
    exact ih m1 m' (fun v hv => hcont v (List.mem_cons_of_mem _ hv)) hm1lookup hrec

theorem entitiesOfArray_length :
    ∀ {rows : List Json} {es : List Entity}, entitiesOfArray rows = .ok es →
      es.length = rows.length := by
  intro rows
  induction rows with
  | nil => intro es h; cases h; rfl
  | cons r rest ih =>
    intro es h
    rw [entitiesOfArray] at h
    cases he : entityOfRecord r with
    | error e => rw [he] at h; cases h
    | ok ent =>
      rw [he] at h
      cases hrest : entitiesOfArray rest with
      | error e => rw [hrest] at h; cases h
      | ok ents =>
        rw [hrest] at h
        cases h
        simp [ih hrest]

theorem entitiesOfArray_ok {rows : List Json}
    (h : ∀ r ∈ rows, ∃ g, r = Json.obj g) :
    ∃ es, entitiesOfArray rows = .ok es := by
  induction rows with
  | nil => exact ⟨[], rfl⟩
  | cons r rest ih =>
    obtain ⟨g, rfl⟩ := h r (List.mem_cons_self _ _)
    obtain ⟨m', hm'⟩ := recordFold_ok g []
    obtain ⟨es, hes⟩ := ih (fun r hr => h r (List.mem_cons_of_mem _ hr))
    refine ⟨⟨m'⟩ :: es, ?_⟩
    simp only [entitiesOfArray, entityOfRecord, hm', hes]
    rfl

theorem entitiesOfArray_getElem :
    ∀ {rows : List Json} {es : List Entity}, entitiesOfArray rows = .ok es →
      ∀ i (h : i < rows.length) (h' : i < es.length),
        entityOfRecord rows[i] = .ok es[i] := by
  intro rows
  induction rows with
  | nil => intro es _ i h; simp at h
  | cons r rest ih =>
    intro es hok i h h'
    rw [entitiesOfArray] at hok
    cases he : entityOfRecord r with
    | error e => rw [he] at hok; cases hok
    | ok ent =>
      rw [he] at hok
      cases hrest : entitiesOfArray rest with
      | error e => rw [hrest] at hok; cases hok
      | ok ents =>
        rw [hrest] at hok
        cases hok
        cases i with
        | zero => simpa using he
        | succ i' =>
          have hlen : i' < ents.length := by simpa using h'
          simpa using ih hrest i' (by simpa using h) hlen

/-- C8: a JSON field value that is an unsigned integer decodes to the
`Int` row-value variant exactly when it fits in the signed 64-bit range,
and to the lossy `Float` variant otherwise; the cascade tries the signed
reading before the float reading, so the outcome is a function of the
input. -/
theorem claim_C8_unsigned_coercion (m : AttrMap) (k : Str) (n : Nat) :
    add_attribute m k (Json.num (JNum.pos n)) =
      .ok (if n ≤ i64Max then insertAttr m k (RowValue.int (n : Int))
           else insertAttr m k (RowValue.float (f64ofU64 n))) := by
  by_cases h : n ≤ i64Max <;>
    simp [add_attribute, Json.isNull, Json.isI64, Json.isU64, Json.asI64, Json.asU64,
      i64TryFrom, h]

/-- C10: a page whose `value` array holds only objects decodes successfully
even when some row field is a JSON array or nested object; such fields
are silently dropped (no attribute is inserted for their key, and no
error is raised). -/
theorem claim_C10_container_fields_dropped (fields : List (Str × Json)) (rows : List Json)
    (hval : objGet fields (toL "value") = some (Json.arr rows))
    (hrows : ∀ r ∈ rows, ∃ g, r = Json.obj g) :
    ∃ es, parse_entities_from_response (Json.obj fields) = .ok es ∧
      es.length = rows.length ∧
      ∀ i (h : i < rows.length) (h' : i < es.length) (g : List (Str × Json)) (k : Str),
        rows[i] = Json.obj g →
        (∀ v, (k, v) ∈ g → v.isContainer = true) →
        lookupAttr (es[i]).attributes k = none := by
  obtain ⟨es, hes⟩ := entitiesOfArray_ok hrows
  refine ⟨es, by simp [parse_entities_from_response, hval, hes], entitiesOfArray_length hes, ?_⟩
  intro i h h' g k hrow hcont
  have hrec := entitiesOfArray_getElem hes i h h'
  rw [hrow] at hrec
  rw [entityOfRecord] at hrec
  cases hfold : recordFold [] g with
  | error e => rw [hfold] at hrec; cases hrec
  | ok m' =>
    rw [hfold] at hrec
    have hent : es[i] = Entity.mk m' := by
      simpa [Except.map] using hrec.symm
    rw [hent]
    exact recordFold_lookup_none g [] m' hcont rfl hfold

/-- C10 witness: a concrete page with one row whose field `nested` is an
array is decoded to one entity in which `nested` is absent. -/
theorem claim_C10_witness :
    ∃ es, parse_entities_from_response
        (Json.obj [(toL "value", Json.arr [Json.obj [(toL "nested", Json.arr [Json.null])]])])
        = .ok es ∧
      es.length = 1 ∧
      ∀ i (h : i < (1 : Nat)) (h' : i < es.length) (g : List (Str × Json)) (k : Str),
        [Json.obj [(toL "nested", Json.arr [Json.null])]][i] = Json.obj g →
        (∀ v, (k, v) ∈ g → v.isContainer = true) →
        lookupAttr (es[i]).attributes k = none := by
  have := claim_C10_container_fields_dropped
    [(toL "value", Json.arr [Json.obj [(toL "nested", Json.arr [Json.null])]])]
    [Json.obj [(toL "nested", Json.arr [Json.null])]]
    rfl
    (by intro r hr
        rw [List.mem_singleton] at hr
        exact ⟨[(toL "nested", Json.arr [Json.null])], hr⟩)
  exact this

/-! ## Query-syntax errors and the single-shot path -/

theorem findSub_eq_none_of_not_contains {t p : Str} (h : containsSub t p = false) :
    findSub p t = none := by
  unfold containsSub at h
  cases hf : findSub p t with
  | none => rfl
  | some i => rw [hf] at h; simp at h

/-- C9: a query with no fetch root tag, or whose root tag is never closed,
makes both retrieval operations fail with the corresponding query-syntax
error while issuing no HTTP request at all (the request log is empty). -/
theorem claim_C9_syntax_error_before_request (q : Str) (resps : List Json)
    (h : findSub (toL "<fetch") q = none ∨
      ∃ f, findSub (toL "<fetch") q = some f ∧ charFind '>' (q.drop f) = none) :
    ∃ e, (e = Err.missingFetchTag ∨ e = Err.tagNotClosed) ∧
      retrieve_multiple_fetchxml q resps = ([], .error e) ∧
      retrieve_multiple_fetchxml_count q resps = ([], .error e) := by
  rcases h with h | ⟨f, hf, hgt⟩
  · refine ⟨.missingFetchTag, Or.inl rfl, ?_, ?_⟩ <;>
      simp [retrieve_multiple_fetchxml, retrieve_multiple_fetchxml_count,
        fetch_tag_has_attr, h]
  · refine ⟨.tagNotClosed, Or.inr rfl, ?_, ?_⟩ <;>
      simp [retrieve_multiple_fetchxml, retrieve_multiple_fetchxml_count,
        fetch_tag_has_attr, hf, hgt]

/-- C9 witness: the spec's own example `<foo/>` has no fetch tag. -/
theorem claim_C9_witness :
    ∃ e, (e = Err.missingFetchTag ∨ e = Err.tagNotClosed) ∧
      retrieve_multiple_fetchxml (toL "<foo/>") [] = ([], .error e) ∧
      retrieve_multiple_fetchxml_count (toL "<foo/>") [] = ([], .error e) :=
  claim_C9_syntax_error_before_request (toL "<foo/>") [] (Or.inl (by decide))

/-- C5: the aggregate page-size cap.  A query not marked aggregate is
returned unchanged; an aggregate-marked query whose root tag already has a
count attribute is returned unchanged; an aggregate-marked query without
one gets exactly one ` count="5000"` inserted right before the root tag's
closing `>`. -/
theorem claim_C5_aggregate_cap (q : Str) :
    (containsSub q (toL "aggregate=\"true\"") = false →
      ensure_aggregate_page_size q AGGREGATE_PAGE_SIZE = .ok q) ∧
    (containsSub q (toL "aggregate=\"true\"") = true →
      fetch_tag_has_attr q (toL "count") = .ok true →
      ensure_aggregate_page_size q AGGREGATE_PAGE_SIZE = .ok q) ∧
    (∀ f d, containsSub q (toL "aggregate=\"true\"") = true →
      findSub (toL "<fetch") q = some f →
      charFind '>' (q.drop f) = some d →
      containsSub ((q.drop f).take (d + 1)) (toL "count=") = false →
      ensure_aggregate_page_size q AGGREGATE_PAGE_SIZE
        = .ok (q.take (f + d) ++ toL " count=\"5000\"" ++ q.drop (f + d))) := by
  refine ⟨?_, ?_, ?_⟩
  · intro h
    simp [ensure_aggregate_page_size, h]
  · intro hagg hcnt
    simp only [ensure_aggregate_page_size, hagg, hcnt, Bool.not_true, if_false,
      Bool.false_eq_true, not_false_eq_true, ite_true, ite_false]
    rfl
  · intro f d hagg hf hd hc
    have hkey : (toL "count" ++ ['=']) = toL "count=" := by decide
    have hattr : fetch_tag_has_attr q (toL "count") = .ok false := by
      simp [fetch_tag_has_attr, hf, hd, hkey, hc]
    have hnone : findSub (toL "count" ++ ['=']) ((q.drop f).take (d + 1)) = none := by
      rw [hkey]
      exact findSub_eq_none_of_not_contains hc
    have hens : ensure_aggregate_page_size q AGGREGATE_PAGE_SIZE
        = upsert_fetch_attr q (toL "count") (intToL AGGREGATE_PAGE_SIZE) := by
      simp only [ensure_aggregate_page_size, hagg, hattr, Bool.not_true, if_false,
        Bool.false_eq_true, not_false_eq_true, ite_true, ite_false]
      rfl
    have hup : upsert_fetch_attr q (toL "count") (intToL AGGREGATE_PAGE_SIZE)
        = .ok (q.take (f + d) ++ [' '] ++ toL "count" ++ ['=', dq]
            ++ intToL AGGREGATE_PAGE_SIZE ++ [dq] ++ q.drop (f + d)) := by
      simp [upsert_fetch_attr, hf, hd, hnone]
    have h1 : toL " count=\"5000\""
        = [' ', 'c', 'o', 'u', 'n', 't', '=', dq, '5', '0', '0', '0', dq] := by decide
    have h2 : toL "count" = ['c', 'o', 'u', 'n', 't'] := by decide
    have h3 : intToL AGGREGATE_PAGE_SIZE = ['5', '0', '0', '0'] := by decide
    rw [hens, hup]
    simp [h1, h2, h3, List.append_assoc]

/-- C5 witness: the three branches at concrete queries: not aggregate,
aggregate with a count attribute, and aggregate without one (the root tag
of the last ends at index 23, where ` count="5000"` is inserted). -/
theorem claim_C5_witness :
    ensure_aggregate_page_size (toL "<fetch></fetch>") AGGREGATE_PAGE_SIZE
        = .ok (toL "<fetch></fetch>") ∧
    ensure_aggregate_page_size (toL "<fetch aggregate=\"true\" count=\"10\"></fetch>")
        AGGREGATE_PAGE_SIZE = .ok (toL "<fetch aggregate=\"true\" count=\"10\"></fetch>") ∧
    ensure_aggregate_page_size (toL "<fetch aggregate=\"true\"></fetch>") AGGREGATE_PAGE_SIZE
        = .ok ((toL "<fetch aggregate=\"true\"></fetch>").take 23
            ++ toL " count=\"5000\"" ++ (toL "<fetch aggregate=\"true\"></fetch>").drop 23) :=
  ⟨(claim_C5_aggregate_cap _).1 (by decide),
   (claim_C5_aggregate_cap _).2.1 (by decide) (by decide),
   (claim_C5_aggregate_cap _).2.2 0 23 (by decide) (by decide) (by decide) (by decide)⟩

/-- C3 counterexample: for a query with both a `top` attribute and the
aggregate flag, the single request that is issued carries the caller's
query text unchanged, although aggregate-cap normalization would have
produced a different text — the claim that the sent text is the
`ensure_aggregate_page_size`-normalized query is false. -/
theorem claim_C3_counterexample :
    (retrieve_multiple_fetchxml (toL "<fetch top=\"1\" aggregate=\"true\"></fetch>")
        [Json.obj [(toL "value", Json.arr [])]]).1
      = [toL "<fetch top=\"1\" aggregate=\"true\"></fetch>"] ∧
    ensure_aggregate_page_size (toL "<fetch top=\"1\" aggregate=\"true\"></fetch>")
        AGGREGATE_PAGE_SIZE
      = .ok (toL "<fetch top=\"1\" aggregate=\"true\" count=\"5000\"></fetch>") ∧
    toL "<fetch top=\"1\" aggregate=\"true\" count=\"5000\"></fetch>"
      ≠ toL "<fetch top=\"1\" aggregate=\"true\"></fetch>" := by
  refine ⟨by decide, by decide, by decide⟩

/-- C3 (amended): a query whose root tag has a `top` attribute issues
exactly one request regardless of the server's responses, and the query
text sent is the caller's text verbatim — no aggregate-cap normalization
and no page or paging-cookie attribute is applied on this path. -/
theorem claim_C3_single_shot (q : Str) (resps : List Json)
    (h : fetch_tag_has_attr q (toL "top") = .ok true) :
    (retrieve_multiple_fetchxml q resps).1 = [q] := by
  simp [retrieve_multiple_fetchxml, h, retrieve_multiple_fetchxml_single]

/-- C3 witness: one request, sent verbatim, for a concrete top query. -/
theorem claim_C3_witness :
    (retrieve_multiple_fetchxml (toL "<fetch top=\"1\" aggregate=\"true\"></fetch>")
        [Json.obj [(toL "value", Json.arr [])],
         Json.obj [(toL "value", Json.arr [])]]).1
      = [toL "<fetch top=\"1\" aggregate=\"true\"></fetch>"] :=
  claim_C3_single_shot _ _ (by decide)

/-- C2 counterexample: a first page with `more_records = true` and no
paging-cookie annotation does not make the paged retrieval fail: the
driver issues a second request (with the page number advanced and no
cookie) and returns the accumulated rows successfully. -/
theorem claim_C2_counterexample :
    parse_more_records
        (Json.obj [(toL "value", Json.arr [Json.obj []]), (moreRecordsKey, Json.bool true)])
      = true ∧
    extract_paging_cookie
        (Json.obj [(toL "value", Json.arr [Json.obj []]), (moreRecordsKey, Json.bool true)])
      = none ∧
    retrieve_multiple_fetchxml (toL "<fetch></fetch>")
        [Json.obj [(toL "value", Json.arr [Json.obj []]), (moreRecordsKey, Json.bool true)],
         Json.obj [(toL "value", Json.arr [])]]
      = ([toL "<fetch page=\"1\"></fetch>", toL "<fetch page=\"2\"></fetch>"],
          .ok [⟨[(ROW_NUMBER_ATTRIBUTE, .int 1)]⟩]) := by
  refine ⟨by decide, by decide, by decide⟩

/-- C2 (amended): when a decoded page reports `more_records = true` but no
cursor can be extracted, neither paged loop stops with an error; both
proceed to the next page request with the page number incremented and no
paging-cookie attribute (any previously held cursor is discarded, not
reused stale). -/
theorem claim_C2_missing_cursor_continues (q : Str) (page : Int) (c : Option Str)
    (acc : List Entity) (total : Nat) (j : Json) (rest : List Json) (fq : Str)
    (pes : List Entity) (n : Nat)
    (hfq : (ensure_aggregate_page_size q AGGREGATE_PAGE_SIZE).bind
        (fun s => apply_paging s page c) = .ok fq)
    (hparse : parse_entities_from_response j = .ok pes)
    (hcount : parse_record_count_from_response j = .ok n)
    (hmore : parse_more_records j = true)
    (hcookie : extract_paging_cookie j = none) :
    goRows q page c acc (j :: rest)
        = (fq :: (goRows q (page + 1) none (acc ++ addRowNumbers acc.length pes) rest).1,
           (goRows q (page + 1) none (acc ++ addRowNumbers acc.length pes) rest).2) ∧
    goCount q page c total (j :: rest)
        = (fq :: (goCount q (page + 1) none (total + n) rest).1,
           (goCount q (page + 1) none (total + n) rest).2) := by
  constructor
  · rw [goRows, hfq, hparse]
    simp [hmore, hcookie]
  · rw [goCount, hfq, hcount]
    simp [hmore, hcookie]

/-- C2 witness: the amended behavior at a concrete page. -/
theorem claim_C2_witness :
    goRows (toL "<fetch></fetch>") 1 none []
        [Json.obj [(toL "value", Json.arr []), (moreRecordsKey, Json.bool true)]]
      = ([toL "<fetch page=\"1\"></fetch>", toL "<fetch page=\"2\"></fetch>"],
          .error .requestFailed) ∧
    goCount (toL "<fetch></fetch>") 1 none 0
        [Json.obj [(toL "value", Json.arr []), (moreRecordsKey, Json.bool true)]]
      = ([toL "<fetch page=\"1\"></fetch>", toL "<fetch page=\"2\"></fetch>"],
          .error .requestFailed) := by
  have := claim_C2_missing_cursor_continues (toL "<fetch></fetch>") 1 none [] 0
    (Json.obj [(toL "value", Json.arr []), (moreRecordsKey, Json.bool true)]) []
    (toL "<fetch page=\"1\"></fetch>") [] 0
    (by decide) (by decide) (by decide) (by decide) (by decide)
  refine ⟨?_, ?_⟩
  · rw [this.1]
    decide
  · rw [this.2]
    decide

/-! ## Cursor escaping and extraction (C7) -/

theorem findSub_cons_of_head_ne {p : Char} {ps : Str} {b : Char} {bs : Str} (h : p ≠ b) :
    findSub (p :: ps) (b :: bs) = (findSub (p :: ps) bs).map (· + 1) := by
  simp [findSub, isPfx, h]

theorem findSub_append_self (p0 : Char) (pt A X : Str) (hA : p0 ∉ A) :
    findSub (p0 :: pt) (A ++ ((p0 :: pt) ++ X)) = some A.length := by
  induction A with
  | nil =>
    simpa using findSub_of_isPfx (isPfx_append_self (p0 :: pt) X)
  | cons a as_ ih =>
    have ha : p0 ≠ a := fun hh => hA (by simp [hh])
    have has : p0 ∉ as_ := fun hh => hA (by simp [hh])
    rw [List.cons_append, findSub_cons_of_head_ne ha, ih has]
    simp

/-- A synthetic server response whose paging-cookie annotation embeds the
given (already escaped/encoded) text as its `pagingcookie` attribute value,
in the shape the service uses. -/
def syntheticCookieResponse (embedded : Str) : Json :=
  Json.obj [(pagingCookieKey,
    Json.str (toL "<cookie pagingcookie=\"" ++ embedded ++ toL "\" />"))]

/-- C7 counterexample: the cursor `&` is XML-escaped to `&amp;` on the way
into the query text, but the extraction path only URL-decodes, so the
re-extracted string is `&amp;`, not the original `&`. -/
theorem claim_C7_counterexample :
    escape_xml_attribute ['&'] = toL "&amp;" ∧
    extract_paging_cookie (syntheticCookieResponse (escape_xml_attribute ['&']))
      = some (toL "&amp;") ∧
    toL "&amp;" ≠ ['&'] := by
  refine ⟨by decide, by decide, by decide⟩

/-- Unfolding of `extract_paging_cookie` into explicit `Option.bind`s. -/
theorem extract_paging_cookie_eq (json : Json) :
    extract_paging_cookie json =
      ((json.get pagingCookieKey).bind Json.asStr).bind (fun s =>
        (findSub (toL "pagingcookie=\"") s).bind (fun i =>
          (charFind dq (s.drop (i + (toL "pagingcookie=\"").length))).bind (fun e =>
            (urldecode ((s.drop (i + (toL "pagingcookie=\"").length)).take e)).bind (fun d1 =>
              (urldecode d1).bind (fun d2 => some d2))))) := rfl

/-- C7 (amended): re-extracting an XML-escaped cursor through the cookie
decode path yields the escaped string itself, not the original cursor:
`extract_paging_cookie` URL-decodes twice and leaves XML entity
references intact, and the escaped text of any percent-free cursor is
percent-free, so it passes through both decodes unchanged. -/
theorem claim_C7_escape_not_inverted (c : Str) (h : '%' ∉ c) :
    extract_paging_cookie (syntheticCookieResponse (escape_xml_attribute c))
      = some (escape_xml_attribute c) := by
  have hpct : '%' ∉ escape_xml_attribute c := escape_no_pct h
  have hdq : dq ∉ escape_xml_attribute c := escape_no_dq c
  have hget : ((syntheticCookieResponse (escape_xml_attribute c)).get pagingCookieKey).bind
      Json.asStr
      = some (toL "<cookie pagingcookie=\"" ++ escape_xml_attribute c ++ toL "\" />") := by
    simp [syntheticCookieResponse, Json.get, objGet, Json.asStr]
  have hshape : toL "<cookie pagingcookie=\"" ++ escape_xml_attribute c ++ toL "\" />"
      = toL "<cookie " ++ (('p' :: toL "agingcookie=\"")
          ++ (escape_xml_attribute c ++ toL "\" />")) := by
    have : toL "<cookie pagingcookie=\"" = toL "<cookie " ++ ('p' :: toL "agingcookie=\"") := by
      decide
    rw [this]
    simp [List.append_assoc]
  have hkeycons : toL "pagingcookie=\"" = 'p' :: toL "agingcookie=\"" := by decide
  have hfind : findSub (toL "pagingcookie=\"")
      (toL "<cookie pagingcookie=\"" ++ escape_xml_attribute c ++ toL "\" />") = some 8 := by
    rw [hkeycons, hshape]
    have := findSub_append_self 'p' (toL "agingcookie=\"") (toL "<cookie ")
      (escape_xml_attribute c ++ toL "\" />") (by decide)
    simpa using this
  have hdrop : (toL "<cookie pagingcookie=\"" ++ escape_xml_attribute c ++ toL "\" />").drop
      (8 + (toL "pagingcookie=\"").length)
      = escape_xml_attribute c ++ toL "\" />" := by
    have h22 : 8 + (toL "pagingcookie=\"").length = (toL "<cookie pagingcookie=\"").length := by
      decide
    rw [h22, List.append_assoc, List.drop_left]
  have hpost : toL "\" />" = dq :: toL " />" := by decide
  have hcf : charFind dq (escape_xml_attribute c ++ toL "\" />")
      = some (escape_xml_attribute c).length := by
    rw [charFind_append_of_not_mem _ hdq, hpost, charFind_cons_self]
    simp
  have htake : (escape_xml_attribute c ++ toL "\" />").take (escape_xml_attribute c).length
      = escape_xml_attribute c := List.take_left _ _
  have hurl : urldecode (escape_xml_attribute c) = some (escape_xml_attribute c) :=
    urldecode_of_no_pct hpct
  rw [extract_paging_cookie_eq, hget, Option.some_bind, hfind, Option.some_bind]
  rw [hdrop, hcf, Option.some_bind, htake, hurl, Option.some_bind, hurl, Option.some_bind]

/-- C7 witness: the amended statement at the concrete cursor `A&B`. -/
theorem claim_C7_witness :
    extract_paging_cookie (syntheticCookieResponse (escape_xml_attribute (toL "A&B")))
      = some (escape_xml_attribute (toL "A&B")) :=
  claim_C7_escape_not_inverted (toL "A&B") (by decide)

/-! ## Paged loop agreement (C1) and row numbering (C4) -/

theorem addRowNumbers_length (s : Nat) (es : List Entity) :
    (addRowNumbers s es).length = es.length := by
  simp [addRowNumbers]

theorem addRowNumbers_getElem (s : Nat) (es : List Entity) (i : Nat)
    (h : i < (addRowNumbers s es).length) (hi : i < es.length) :
    (addRowNumbers s es)[i]
      = ⟨insertAttr es[i].attributes ROW_NUMBER_ATTRIBUTE (.int (s + i + 1))⟩ := by
  simp only [addRowNumbers, List.getElem_map]
  rw [List.getElem_enum]

theorem parse_record_count_of_entities {j : Json} {es : List Entity}
    (h : parse_entities_from_response j = .ok es) :
    parse_record_count_from_response j = .ok es.length := by
  cases j with
  | obj fields =>
    rw [parse_entities_from_response] at h
    rw [parse_record_count_from_response]
    cases hv : objGet fields (toL "value") with
    | none => rw [hv] at h; cases h
    | some v =>
      rw [hv] at h
      cases v with
      | arr rows => rw [entitiesOfArray_length h]
      | null => cases h
      | bool b => cases h
      | num n => cases h
      | str s => cases h
      | obj fs => cases h
  | null => cases h
  | bool b => cases h
  | num n => cases h
  | str s => cases h
  | arr xs => cases h

theorem goRows_goCount_agree :
    ∀ (resps : List Json) (q : Str) (page : Int) (c : Option Str) (acc es : List Entity),
      (goRows q page c acc resps).2 = .ok es →
      ∃ tail, es = acc ++ tail ∧
        ∀ total, goCount q page c total resps
          = ((goRows q page c acc resps).1, .ok (total + tail.length)) := by
  intro resps
  induction resps with
  | nil =>
    intro q page c acc es h
    rw [goRows] at h
    cases hfq : (ensure_aggregate_page_size q AGGREGATE_PAGE_SIZE).bind
        (fun s => apply_paging s page c) with
    | error e => rw [hfq] at h; simp at h
    | ok fq => rw [hfq] at h; simp at h
  | cons j rest ih =>
    intro q page c acc es h
    rw [goRows] at h
    cases hfq : (ensure_aggregate_page_size q AGGREGATE_PAGE_SIZE).bind
        (fun s => apply_paging s page c) with
    | error e => rw [hfq] at h; simp at h
    | ok fq =>
      rw [hfq] at h
      cases hp : parse_entities_from_response j with
      | error e => rw [hp] at h; simp at h
      | ok pes =>
        rw [hp] at h
        have hcnt := parse_record_count_of_entities hp
        by_cases hmore : parse_more_records j
        · simp only [hmore, if_true] at h
          obtain ⟨tail', htail', hcount'⟩ :=
            ih q (page + 1) (extract_paging_cookie j)
              (acc ++ addRowNumbers acc.length pes) es h
          refine ⟨addRowNumbers acc.length pes ++ tail', ?_, ?_⟩
          · rw [htail', List.append_assoc]
          · intro total
            rw [goCount, hfq, hcnt]
            rw [goRows, hfq, hp]
            simp only [hmore, if_true]
            rw [hcount' (total + pes.length)]
            refine Prod.ext rfl ?_
            simp only [Except.ok.injEq, List.length_append, addRowNumbers_length]
            omega
        · simp only [hmore, if_false] at h
          replace h : acc ++ addRowNumbers acc.length pes = es := by
            simpa using h
          refine ⟨addRowNumbers acc.length pes, h.symm, ?_⟩
          intro total
          rw [goCount, hfq, hcnt]
          rw [goRows, hfq, hp]
          simp only [hmore, if_false]
          refine Prod.ext rfl ?_
          simp [addRowNumbers_length]

/-- C1: for a query whose root tag has no `top` attribute, whenever the
paged row retrieval succeeds, the count retrieval against the same
response sequence issues the same requests and returns exactly the length
of the returned entity vector. -/
theorem claim_C1_count_agrees_with_rows (q : Str) (resps : List Json) (es : List Entity)
    (htop : fetch_tag_has_attr q (toL "top") = .ok false)
    (hok : (retrieve_multiple_fetchxml q resps).2 = .ok es) :
    retrieve_multiple_fetchxml_count q resps
      = ((retrieve_multiple_fetchxml q resps).1, .ok es.length) := by
  rw [retrieve_multiple_fetchxml, htop] at hok ⊢
  rw [retrieve_multiple_fetchxml_count, htop]
  obtain ⟨tail, htail, hcount⟩ := goRows_goCount_agree resps q 1 none [] es hok
  rw [hcount 0]
  simp [htail]

/-- C1 witness: a two-page retrieval with two rows then one row returns
three entities and the count path returns 3 with the same request log. -/
theorem claim_C1_witness :
    retrieve_multiple_fetchxml_count (toL "<fetch></fetch>")
        [Json.obj [(toL "value", Json.arr [Json.obj [], Json.obj []]),
            (moreRecordsKey, Json.bool true)],
         Json.obj [(toL "value", Json.arr [Json.obj []])]]
      = ((retrieve_multiple_fetchxml (toL "<fetch></fetch>")
            [Json.obj [(toL "value", Json.arr [Json.obj [], Json.obj []]),
                (moreRecordsKey, Json.bool true)],
             Json.obj [(toL "value", Json.arr [Json.obj []])]]).1, .ok 3) := by
  have := claim_C1_count_agrees_with_rows (toL "<fetch></fetch>")
    [Json.obj [(toL "value", Json.arr [Json.obj [], Json.obj []]),
        (moreRecordsKey, Json.bool true)],
     Json.obj [(toL "value", Json.arr [Json.obj []])]]
    [⟨[(ROW_NUMBER_ATTRIBUTE, .int 1)]⟩, ⟨[(ROW_NUMBER_ATTRIBUTE, .int 2)]⟩,
     ⟨[(ROW_NUMBER_ATTRIBUTE, .int 3)]⟩]
    (by decide) (by decide)
  simpa using this

theorem rownum_append_invariant {acc pes : List Entity}
    (hacc : ∀ i (h : i < acc.length),
      lookupAttr acc[i].attributes ROW_NUMBER_ATTRIBUTE = some (.int (i + 1))) :
    ∀ i (h : i < (acc ++ addRowNumbers acc.length pes).length),
      lookupAttr (acc ++ addRowNumbers acc.length pes)[i].attributes ROW_NUMBER_ATTRIBUTE
        = some (.int (i + 1)) := by
  intro i h
  by_cases hi : i < acc.length
  · rw [List.getElem_append_left hi]
    exact hacc i hi
  · have hlen : i < acc.length + (addRowNumbers acc.length pes).length := by
      simpa [List.length_append] using h
    have hoff : i - acc.length < pes.length := by
      rw [addRowNumbers_length] at hlen
      omega
    rw [List.getElem_append_right (le_of_not_lt hi)]
    rw [addRowNumbers_getElem _ _ _ (by rw [addRowNumbers_length]; omega) hoff]
    rw [lookupAttr_insertAttr_same]
    congr 1
    congr 1
    omega

theorem goRows_rownum :
    ∀ (resps : List Json) (q : Str) (page : Int) (c : Option Str) (acc es : List Entity),
      (∀ i (h : i < acc.length),
        lookupAttr acc[i].attributes ROW_NUMBER_ATTRIBUTE = some (.int (i + 1))) →
      (goRows q page c acc resps).2 = .ok es →
      ∀ i (h : i < es.length),
        lookupAttr es[i].attributes ROW_NUMBER_ATTRIBUTE = some (.int (i + 1)) := by
  intro resps
  induction resps with
  | nil =>
    intro q page c acc es hacc h
    rw [goRows] at h
    cases hfq : (ensure_aggregate_page_size q AGGREGATE_PAGE_SIZE).bind
        (fun s => apply_paging s page c) with
    | error e => rw [hfq] at h; simp at h
    | ok fq => rw [hfq] at h; simp at h
  | cons j rest ih =>
    intro q page c acc es hacc h
    rw [goRows] at h
    cases hfq : (ensure_aggregate_page_size q AGGREGATE_PAGE_SIZE).bind
        (fun s => apply_paging s page c) with
    | error e => rw [hfq] at h; simp at h
    | ok fq =>
      rw [hfq] at h
      cases hp : parse_entities_from_response j with
      | error e => rw [hp] at h; simp at h
      | ok pes =>
        rw [hp] at h
        by_cases hmore : parse_more_records j
        · simp only [hmore, if_true] at h
          exact ih q (page + 1) (extract_paging_cookie j)
            (acc ++ addRowNumbers acc.length pes) es
            (rownum_append_invariant hacc) h
        · simp only [hmore, if_false] at h
          replace h : acc ++ addRowNumbers acc.length pes = es := by
            simpa using h
          rw [← h]
          exact rownum_append_invariant hacc

/-- C4: in every successful paged retrieval, the i-th returned entity
(0-based index i) carries the synthetic `__rownum` attribute with value
i + 1: numbering starts at 1 and increases by 1 across page boundaries. -/
theorem claim_C4_row_numbering (q : Str) (resps : List Json) (es : List Entity)
    (htop : fetch_tag_has_attr q (toL "top") = .ok false)
    (hok : (retrieve_multiple_fetchxml q resps).2 = .ok es) :
    ∀ i (h : i < es.length),
      lookupAttr es[i].attributes ROW_NUMBER_ATTRIBUTE = some (.int (i + 1)) := by
  rw [retrieve_multiple_fetchxml, htop] at hok
  exact goRows_rownum resps q 1 none [] es (by intro i h; simp at h) hok

/-- C4 witness: in the two-page scenario the second returned entity
carries row number 2. -/
theorem claim_C4_witness :
    lookupAttr (([⟨[(ROW_NUMBER_ATTRIBUTE, RowValue.int 1)]⟩,
        ⟨[(ROW_NUMBER_ATTRIBUTE, RowValue.int 2)]⟩,
        ⟨[(ROW_NUMBER_ATTRIBUTE, RowValue.int 3)]⟩] : List Entity)[1]).attributes
      ROW_NUMBER_ATTRIBUTE = some (.int 2) := by
  have := claim_C4_row_numbering (toL "<fetch></fetch>")
    [Json.obj [(toL "value", Json.arr [Json.obj [], Json.obj []]),
        (moreRecordsKey, Json.bool true)],
     Json.obj [(toL "value", Json.arr [Json.obj []])]]
    [⟨[(ROW_NUMBER_ATTRIBUTE, RowValue.int 1)]⟩,
     ⟨[(ROW_NUMBER_ATTRIBUTE, RowValue.int 2)]⟩,
     ⟨[(ROW_NUMBER_ATTRIBUTE, RowValue.int 3)]⟩]
    (by decide) (by decide) 1 (by decide)
  simpa using this

/-! ## apply_paging idempotence (C6): unfolding and indexing toolkit -/

theorem take_append_cons (X : Str) (y : Char) (B : Str) :
    (X ++ y :: B).take (X.length + 1) = X ++ [y] := by
  induction X with
  | nil => simp
  | cons x xs ih => simpa using ih

theorem isPfx_getElem_abs {p t : Str} {j : Nat} (h : isPfx p (t.drop j) = true)
    {k : Nat} (hk : k < p.length) : t[j + k]? = p[k]? := by
  have := isPfx_getElem h k hk
  rw [List.getElem?_drop] at this
  exact this

theorem splice_take (P X : Str) : (P ++ X).take P.length = P := List.take_left _ _

theorem splice_drop (P v S : Str) :
    (P ++ v ++ S).drop (P.length + v.length) = S := by
  rw [show P ++ v ++ S = (P ++ v) ++ S by simp]
  rw [show P.length + v.length = (P ++ v).length by simp]
  exact List.drop_left _ _

/-- Unfolding of `upsert_fetch_attr` on the insert path. -/
theorem upsert_unfold_insert (fetchxml name v : Str) (f d : Nat)
    (hf : findSub (toL "<fetch") fetchxml = some f)
    (hd : charFind '>' (fetchxml.drop f) = some d)
    (hnone : findSub (name ++ ['=']) ((fetchxml.drop f).take (d + 1)) = none) :
    upsert_fetch_attr fetchxml name v
      = .ok (fetchxml.take (f + d) ++ [' '] ++ name ++ ['=', dq] ++ v ++ [dq]
          ++ fetchxml.drop (f + d)) := by
  simp [upsert_fetch_attr, hf, hd, hnone]

/-- Unfolding of `upsert_fetch_attr` on the replace path. -/
theorem upsert_unfold_replace (fetchxml name v : Str) (f d ai : Nat) (qc : Char) (e : Nat)
    (hf : findSub (toL "<fetch") fetchxml = some f)
    (hd : charFind '>' (fetchxml.drop f) = some d)
    (hai : findSub (name ++ ['=']) ((fetchxml.drop f).take (d + 1)) = some ai)
    (hqc : ((fetchxml.drop f).take (d + 1))[ai + (name.length + 1)]? = some qc)
    (hquote : qc = dq ∨ qc = sq)
    (he : charFind qc (((fetchxml.drop f).take (d + 1)).drop (ai + (name.length + 1) + 1))
        = some e) :
    upsert_fetch_attr fetchxml name v
      = .ok (fetchxml.take (f + (ai + (name.length + 1) + 1)) ++ v
          ++ fetchxml.drop (f + (e + (ai + (name.length + 1) + 1)))) := by
  simp [upsert_fetch_attr, hf, hd, hai, hqc, hquote, he]

/-- The text inserted for a page attribute with value `v`. -/
def attrP (v : Str) : Str := [' '] ++ toL "page" ++ ['=', dq] ++ v ++ [dq]

/-- The text inserted for a paging-cookie attribute with (escaped) value `e`. -/
def attrC (e : Str) : Str := [' '] ++ toL "paging-cookie" ++ ['=', dq] ++ e ++ [dq]

theorem attrP_cons (v : Str) :
    attrP v = ' ' :: 'p' :: 'a' :: 'g' :: 'e' :: '=' :: dq :: (v ++ [dq]) := by
  simp [attrP, show toL "page" = ['p', 'a', 'g', 'e'] from by decide]

theorem attrC_cons (e : Str) :
    attrC e = ' ' :: 'p' :: 'a' :: 'g' :: 'i' :: 'n' :: 'g' :: '-' :: 'c' :: 'o' :: 'o' :: 'k'
      :: 'i' :: 'e' :: '=' :: dq :: (e ++ [dq]) := by
  simp [attrC,
    show toL "paging-cookie"
      = ['p', 'a', 'g', 'i', 'n', 'g', '-', 'c', 'o', 'o', 'k', 'i', 'e'] from by decide]

theorem attrP_length (v : Str) : (attrP v).length = 8 + v.length := by
  rw [attrP_cons]
  simp
  omega

theorem attrC_length (e : Str) : (attrC e).length = 17 + e.length := by
  rw [attrC_cons]
  simp
  omega

theorem attrP_no_gt {v : Str} (hv : ∀ ch ∈ v, ch ∈ numChars) : '>' ∉ attrP v := by
  rw [attrP_cons]
  intro hm
  simp only [List.mem_cons] at hm
  rcases hm with h|h|h|h|h|h|h|hm
  · exact absurd h (by decide)
  · exact absurd h (by decide)
  · exact absurd h (by decide)
  · exact absurd h (by decide)
  · exact absurd h (by decide)
  · exact absurd h (by decide)
  · exact absurd h (by decide)
  · rcases List.mem_append.1 hm with h | h
    · exact absurd (hv _ h) (by decide)
    · rw [List.mem_singleton] at h
      exact absurd h (by decide)

theorem attrC_no_gt {e : Str} (he : '>' ∉ e) : '>' ∉ attrC e := by
  rw [attrC_cons]
  intro hm
  simp only [List.mem_cons] at hm
  rcases hm with h|h|h|h|h|h|h|h|h|h|h|h|h|h|h|h|hm
  iterate 16 first
    | exact absurd (by assumption) (by decide)
  rcases List.mem_append.1 hm with h | h
  · exact he h
  · rw [List.mem_singleton] at h
    exact absurd h (by decide)

theorem eqpos_attrP {v : Str} (hv : ∀ ch ∈ v, ch ∈ numChars) :
    ∀ k, (attrP v)[k]? = some '=' → k = 5 := by
  intro k hk
  rw [attrP_cons] at hk
  rcases k with _|_|_|_|_|_|_|k
  · simp at hk
  · simp at hk
  · simp at hk
  · simp at hk
  · simp at hk
  · rfl
  · simp at hk
    exact absurd hk (by decide)
  · exfalso
    simp only [List.getElem?_cons_succ] at hk
    have hmem := List.getElem?_mem hk
    rcases List.mem_append.1 hmem with h | h
    · exact absurd (hv _ h) (by decide)
    · rw [List.mem_singleton] at h
      exact absurd h (by decide)

theorem eqpos_attrC (e : Str) :
    ∀ k, (attrC e)[k]? = some '=' → k = 14 ∨ 16 ≤ k := by
  intro k hk
  rw [attrC_cons] at hk
  rcases k with _|_|_|_|_|_|_|_|_|_|_|_|_|_|_|_|k
  · simp at hk
  · simp at hk
  · simp at hk
  · simp at hk
  · simp at hk
  · simp at hk
  · simp at hk
  · simp at hk
  · simp at hk
  · simp at hk
  · simp at hk
  · simp at hk
  · simp at hk
  · simp at hk
  · exact Or.inl rfl
  · simp at hk
    exact absurd hk (by decide)
  · exact Or.inr (by omega)

theorem fetch_prelude (T Z B : Str) (hTgt : '>' ∉ T) (hZgt : '>' ∉ Z) :
    findSub (toL "<fetch") ((toL "<fetch" ++ T) ++ Z ++ '>' :: B) = some 0 ∧
    charFind '>' ((toL "<fetch" ++ T) ++ Z ++ '>' :: B) = some (6 + T.length + Z.length) ∧
    ((toL "<fetch" ++ T) ++ Z ++ '>' :: B).take (6 + T.length + Z.length + 1)
      = (toL "<fetch" ++ T) ++ Z ++ ['>'] := by
  have h6 : (toL "<fetch").length = 6 := by decide
  have hHgt : ('>' : Char) ∉ toL "<fetch" := by decide
  have hAgt : ('>' : Char) ∉ (toL "<fetch" ++ T) ++ Z := by
    intro hm
    rcases List.mem_append.1 hm with hm | hm
    · rcases List.mem_append.1 hm with hm | hm
      · exact hHgt hm
      · exact hTgt hm
    · exact hZgt hm
  have hassoc : (toL "<fetch" ++ T) ++ Z ++ '>' :: B = ((toL "<fetch" ++ T) ++ Z) ++ '>' :: B := by
    simp [List.append_assoc]
  have hlen : ((toL "<fetch" ++ T) ++ Z).length = 6 + T.length + Z.length := by
    simp only [List.length_append, h6]
  refine ⟨?_, ?_, ?_⟩
  · rw [show (toL "<fetch" ++ T) ++ Z ++ '>' :: B = toL "<fetch" ++ (T ++ (Z ++ '>' :: B)) by
      simp [List.append_assoc]]
    exact findSub_of_isPfx (isPfx_append_self _ _)
  · rw [hassoc, charFind_append_of_not_mem _ hAgt, charFind_cons_self]
    simp only [Option.map_some', List.length_append, h6, Option.some.injEq]
    omega
  · rw [hassoc, ← hlen, take_append_cons]

theorem upsert_insert_general (T Z B name v : Str) (hTgt : '>' ∉ T) (hZgt : '>' ∉ Z)
    (hnone : findSub (name ++ ['=']) ((toL "<fetch" ++ T) ++ Z ++ ['>']) = none) :
    upsert_fetch_attr ((toL "<fetch" ++ T) ++ Z ++ '>' :: B) name v
      = .ok ((toL "<fetch" ++ T) ++ Z ++ ([' '] ++ name ++ ['=', dq] ++ v ++ [dq])
          ++ '>' :: B) := by
  have h6 : (toL "<fetch").length = 6 := by decide
  have hassoc : (toL "<fetch" ++ T) ++ Z ++ '>' :: B = ((toL "<fetch" ++ T) ++ Z) ++ '>' :: B := by
    simp [List.append_assoc]
  have hlen : ((toL "<fetch" ++ T) ++ Z).length = 6 + T.length + Z.length := by
    simp only [List.length_append, h6]
  obtain ⟨h1, h2, h3⟩ := fetch_prelude T Z B hTgt hZgt
  have h2' : charFind '>' (((toL "<fetch" ++ T) ++ Z ++ '>' :: B).drop 0)
      = some (6 + T.length + Z.length) := by simpa using h2
  have h3' : (((toL "<fetch" ++ T) ++ Z ++ '>' :: B).drop 0).take (6 + T.length + Z.length + 1)
      = (toL "<fetch" ++ T) ++ Z ++ ['>'] := by simpa using h3
  have hins := upsert_unfold_insert _ name v 0 (6 + T.length + Z.length) h1 h2'
    (by rw [h3']; exact hnone)
  rw [hins]
  have htake : ((toL "<fetch" ++ T) ++ Z ++ '>' :: B).take (0 + (6 + T.length + Z.length))
      = (toL "<fetch" ++ T) ++ Z := by
    rw [Nat.zero_add, hassoc, ← hlen]
    exact List.take_left _ _
  have hdrop : ((toL "<fetch" ++ T) ++ Z ++ '>' :: B).drop (0 + (6 + T.length + Z.length))
      = '>' :: B := by
    rw [Nat.zero_add, hassoc, ← hlen]
    exact List.drop_left _ _
  rw [htake, hdrop]
  simp [List.append_assoc]

theorem upsert_page_insert (T B v : Str) (hTeq : '=' ∉ T) (hTgt : '>' ∉ T) :
    upsert_fetch_attr ((toL "<fetch" ++ T) ++ '>' :: B) (toL "page") v
      = .ok ((toL "<fetch" ++ T) ++ attrP v ++ '>' :: B) := by
  have hnone : findSub (toL "page" ++ ['=']) ((toL "<fetch" ++ T) ++ List.nil ++ ['>'])
      = none := by
    refine findSub_none_of_missing (c := '=') (by decide) ?_
    intro hm
    rcases List.mem_append.1 hm with hm | hm
    · rcases List.mem_append.1 hm with hm | hm
      · rcases List.mem_append.1 hm with hm | hm
        · exact absurd hm (by decide)
        · exact hTeq hm
      · simp at hm
    · rw [List.mem_singleton] at hm
      exact absurd hm (by decide)
  have := upsert_insert_general T [] B (toL "page") v hTgt (by simp) hnone
  simp only [List.append_nil, List.nil_append] at this
  rw [this]
  simp [attrP, List.append_assoc]

theorem eqpos_tag1 {T v : Str} (hTeq : '=' ∉ T) (hv : ∀ ch ∈ v, ch ∈ numChars) :
    ∀ m, ((toL "<fetch" ++ T) ++ (attrP v ++ ['>']))[m]? = some '=' →
      m = (toL "<fetch" ++ T).length + 5 := by
  intro m hm
  have hDeq : ('=' : Char) ∉ toL "<fetch" ++ T := by
    intro h
    rcases List.mem_append.1 h with h | h
    · exact absurd h (by decide)
    · exact hTeq h
  by_cases hmD : m < (toL "<fetch" ++ T).length
  · rw [List.getElem?_append, if_pos hmD] at hm
    exact absurd (List.getElem?_mem hm) hDeq
  · push_neg at hmD
    obtain ⟨k, rfl⟩ : ∃ k, m = (toL "<fetch" ++ T).length + k :=
      ⟨m - (toL "<fetch" ++ T).length, by omega⟩
    rw [List.getElem?_append_right (by omega)] at hm
    simp only [Nat.add_sub_cancel_left] at hm
    by_cases hk : k < (attrP v).length
    · rw [List.getElem?_append, if_pos hk] at hm
      rw [eqpos_attrP hv k hm]
    · push_neg at hk
      rw [List.getElem?_append_right hk] at hm
      exfalso
      rcases hgone : k - (attrP v).length with _ | k2
      · rw [hgone] at hm
        simp at hm
      · rw [hgone] at hm
        simp at hm

theorem upsert_cookie_insert (T B v e : Str) (hTeq : '=' ∉ T) (hTgt : '>' ∉ T)
    (hv : ∀ ch ∈ v, ch ∈ numChars) :
    upsert_fetch_attr ((toL "<fetch" ++ T) ++ attrP v ++ '>' :: B) (toL "paging-cookie") e
      = .ok ((toL "<fetch" ++ T) ++ attrP v ++ attrC e ++ '>' :: B) := by
  have hnone : findSub (toL "paging-cookie" ++ ['='])
      ((toL "<fetch" ++ T) ++ attrP v ++ ['>']) = none := by
    cases hfs : findSub (toL "paging-cookie" ++ ['='])
        ((toL "<fetch" ++ T) ++ attrP v ++ ['>']) with
    | none => rfl
    | some j =>
      exfalso
      have hpfx := (findSub_eq_some_iff.1 hfs).1
      have h13 : ((toL "<fetch" ++ T) ++ (attrP v ++ ['>']))[j + 13]? = some '=' := by
        have := isPfx_getElem_abs hpfx (k := 13) (by decide)
        rw [show (toL "paging-cookie" ++ ['='])[13]? = some '=' from by decide] at this
        simpa only [List.append_assoc] using this
      have hj := eqpos_tag1 hTeq hv _ h13
      have h11 : ((toL "<fetch" ++ T) ++ (attrP v ++ ['>']))[j + 11]? = some 'i' := by
        have := isPfx_getElem_abs hpfx (k := 11) (by decide)
        rw [show (toL "paging-cookie" ++ ['='])[11]? = some 'i' from by decide] at this
        simpa only [List.append_assoc] using this
      have hg : ((toL "<fetch" ++ T) ++ (attrP v ++ ['>']))[(toL "<fetch" ++ T).length + 3]?
          = some 'g' := by
        rw [List.getElem?_append_right (by omega), Nat.add_sub_cancel_left, attrP_cons]
        simp
      rw [show j + 11 = (toL "<fetch" ++ T).length + 3 by omega, hg] at h11
      simp at h11
  have := upsert_insert_general T (attrP v) B (toL "paging-cookie") e hTgt (attrP_no_gt hv)
    (by simpa [List.append_assoc] using hnone)
  rw [this]
  simp [attrC, List.append_assoc]

theorem eqpos_tagPM {T v : Str} (M : Str) (hTeq : '=' ∉ T) (hv : ∀ ch ∈ v, ch ∈ numChars) :
    ∀ m, ((toL "<fetch" ++ T) ++ ((attrP v ++ M) ++ ['>']))[m]? = some '=' →
      m = (toL "<fetch" ++ T).length + 5 ∨ (toL "<fetch" ++ T).length + 8 + v.length ≤ m := by
  intro m hm
  have hDeq : ('=' : Char) ∉ toL "<fetch" ++ T := by
    intro h
    rcases List.mem_append.1 h with h | h
    · exact absurd h (by decide)
    · exact hTeq h
  by_cases hmD : m < (toL "<fetch" ++ T).length
  · rw [List.getElem?_append, if_pos hmD] at hm
    exact absurd (List.getElem?_mem hm) hDeq
  · push_neg at hmD
    obtain ⟨k, rfl⟩ : ∃ k, m = (toL "<fetch" ++ T).length + k :=
      ⟨m - (toL "<fetch" ++ T).length, by omega⟩
    rw [List.getElem?_append_right (by omega)] at hm
    simp only [Nat.add_sub_cancel_left] at hm
    by_cases hk : k < (attrP v).length
    · have hk2 : k < (attrP v ++ M).length := by
        rw [List.length_append]; omega
      rw [List.getElem?_append, if_pos hk2, List.getElem?_append, if_pos hk] at hm
      exact Or.inl (by rw [eqpos_attrP hv k hm])
    · push_neg at hk
      rw [attrP_length] at hk
      exact Or.inr (by omega)

/-- The first occurrence of `page=` in a tag of shape
`<fetch T  page="v" M >` is the genuine page attribute. -/
theorem find_pagekey_tagPM {T v : Str} (M : Str) (hTeq : '=' ∉ T)
    (hv : ∀ ch ∈ v, ch ∈ numChars) :
    findSub (toL "page" ++ ['=']) ((toL "<fetch" ++ T) ++ ((attrP v ++ M) ++ ['>']))
      = some ((toL "<fetch" ++ T).length + 1) := by
  refine findSub_eq_some_iff.2 ⟨?_, ?_⟩
  · have hdecomp : (toL "<fetch" ++ T) ++ ((attrP v ++ M) ++ ['>'])
        = ((toL "<fetch" ++ T) ++ [' '])
          ++ ((toL "page" ++ ['=']) ++ (dq :: (v ++ (dq :: (M ++ ['>']))))) := by
      rw [attrP_cons]
      simp [List.append_assoc, show toL "page" = ['p', 'a', 'g', 'e'] from by decide]
    rw [hdecomp]
    rw [show (toL "<fetch" ++ T).length + 1 = ((toL "<fetch" ++ T) ++ [' ']).length by
      simp [Nat.add_assoc]]
    rw [List.drop_left]
    exact isPfx_append_self _ _
  · intro j hj
    by_contra hb
    have hpfx : isPfx (toL "page" ++ ['='])
        (((toL "<fetch" ++ T) ++ ((attrP v ++ M) ++ ['>'])).drop j) = true := by
      cases hx : isPfx (toL "page" ++ ['='])
          (((toL "<fetch" ++ T) ++ ((attrP v ++ M) ++ ['>'])).drop j) with
      | false => exact absurd hx hb
      | true => rfl
    have h4 : ((toL "<fetch" ++ T) ++ ((attrP v ++ M) ++ ['>']))[j + 4]? = some '=' := by
      have := isPfx_getElem_abs hpfx (k := 4) (by decide)
      rw [show (toL "page" ++ ['='])[4]? = some '=' from by decide] at this
      exact this
    rcases eqpos_tagPM M hTeq hv _ h4 with h | h
    · omega
    · omega

/-- Replacing the page attribute value with the identical text is the
identity on strings of shape `<fetch T  page="v" M >B`. -/
theorem upsert_page_replace (T v M B : Str) (hTeq : '=' ∉ T) (hTgt : '>' ∉ T)
    (hv : ∀ ch ∈ v, ch ∈ numChars) (hMgt : '>' ∉ M) :
    upsert_fetch_attr ((toL "<fetch" ++ T) ++ (attrP v ++ M) ++ '>' :: B) (toL "page") v
      = .ok ((toL "<fetch" ++ T) ++ (attrP v ++ M) ++ '>' :: B) := by
  have h6 : (toL "<fetch").length = 6 := by decide
  have hplen : (toL "page").length = 4 := by decide
  have hvdq : dq ∉ v := fun h => absurd (hv _ h) (by decide)
  have hZgt : '>' ∉ attrP v ++ M := by
    intro hmem
    rcases List.mem_append.1 hmem with hmem | hmem
    · exact attrP_no_gt hv hmem
    · exact hMgt hmem
  obtain ⟨h1, h2, h3⟩ := fetch_prelude T (attrP v ++ M) B hTgt hZgt
  have h2' : charFind '>' (((toL "<fetch" ++ T) ++ (attrP v ++ M) ++ '>' :: B).drop 0)
      = some (6 + T.length + (attrP v ++ M).length) := by simpa using h2
  have h3' : (((toL "<fetch" ++ T) ++ (attrP v ++ M) ++ '>' :: B).drop 0).take
        (6 + T.length + (attrP v ++ M).length + 1)
      = (toL "<fetch" ++ T) ++ ((attrP v ++ M) ++ ['>']) := by
    simpa [List.append_assoc] using h3
  have hDlen : (toL "<fetch" ++ T).length = 6 + T.length := by simp [h6]
  have hP7 : (toL "<fetch" ++ T) ++ ((attrP v ++ M) ++ ['>'])
      = ((toL "<fetch" ++ T) ++ (' ' :: 'p' :: 'a' :: 'g' :: 'e' :: '=' :: [dq]))
        ++ (v ++ (dq :: (M ++ ['>']))) := by
    rw [attrP_cons]
    simp [List.append_assoc]
  have hS7 : (toL "<fetch" ++ T) ++ (attrP v ++ M) ++ '>' :: B
      = ((toL "<fetch" ++ T) ++ (' ' :: 'p' :: 'a' :: 'g' :: 'e' :: '=' :: [dq]))
        ++ (v ++ (dq :: (M ++ '>' :: B))) := by
    rw [attrP_cons]
    simp [List.append_assoc]
  have hP7len : ((toL "<fetch" ++ T) ++ (' ' :: 'p' :: 'a' :: 'g' :: 'e' :: '=' :: [dq])).length
      = (toL "<fetch" ++ T).length + 7 := by simp [Nat.add_assoc]
  have hqc6 : ((toL "<fetch" ++ T) ++ ((attrP v ++ M) ++ ['>']))[(toL "<fetch" ++ T).length
        + 6]? = some dq := by
    rw [List.getElem?_append_right (by omega), Nat.add_sub_cancel_left]
    have hb1 : (6 : Nat) < (attrP v ++ M).length := by
      rw [List.length_append, attrP_length]; omega
    have hb2 : (6 : Nat) < (attrP v).length := by rw [attrP_length]; omega
    rw [List.getElem?_append, if_pos hb1, List.getElem?_append, if_pos hb2, attrP_cons]
    simp
  have he7 : charFind dq
      (((toL "<fetch" ++ T) ++ ((attrP v ++ M) ++ ['>'])).drop ((toL "<fetch" ++ T).length + 7))
      = some v.length := by
    rw [hP7, ← hP7len, List.drop_left, charFind_append_of_not_mem _ hvdq, charFind_cons_self]
    simp
  have hup := upsert_unfold_replace ((toL "<fetch" ++ T) ++ (attrP v ++ M) ++ '>' :: B)
    (toL "page") v 0 (6 + T.length + (attrP v ++ M).length)
    ((toL "<fetch" ++ T).length + 1) dq v.length h1 h2'
    (by rw [h3']; exact find_pagekey_tagPM M hTeq hv)
    (by rw [h3', hplen, show (toL "<fetch" ++ T).length + 1 + (4 + 1)
          = (toL "<fetch" ++ T).length + 6 by omega]
        exact hqc6)
    (Or.inl rfl)
    (by rw [h3', hplen, show (toL "<fetch" ++ T).length + 1 + (4 + 1) + 1
          = (toL "<fetch" ++ T).length + 7 by omega]
        exact he7)
  rw [hup, hplen]
  have htake : ((toL "<fetch" ++ T) ++ (attrP v ++ M) ++ '>' :: B).take
        (0 + ((toL "<fetch" ++ T).length + 1 + (4 + 1) + 1))
      = (toL "<fetch" ++ T) ++ (' ' :: 'p' :: 'a' :: 'g' :: 'e' :: '=' :: [dq]) := by
    rw [hS7, show 0 + ((toL "<fetch" ++ T).length + 1 + (4 + 1) + 1)
        = ((toL "<fetch" ++ T) ++ (' ' :: 'p' :: 'a' :: 'g' :: 'e' :: '=' :: [dq])).length by
      rw [hP7len]; omega]
    exact List.take_left _ _
  have hdrop : ((toL "<fetch" ++ T) ++ (attrP v ++ M) ++ '>' :: B).drop
        (0 + (v.length + ((toL "<fetch" ++ T).length + 1 + (4 + 1) + 1)))
      = dq :: (M ++ '>' :: B) := by
    rw [hS7, show (v ++ (dq :: (M ++ '>' :: B)))
        = v ++ (dq :: (M ++ '>' :: B)) from rfl]
    rw [show 0 + (v.length + ((toL "<fetch" ++ T).length + 1 + (4 + 1) + 1))
        = ((toL "<fetch" ++ T) ++ (' ' :: 'p' :: 'a' :: 'g' :: 'e' :: '=' :: [dq])).length
          + v.length by rw [hP7len]; omega]
    rw [show ((toL "<fetch" ++ T) ++ (' ' :: 'p' :: 'a' :: 'g' :: 'e' :: '=' :: [dq]))
          ++ (v ++ (dq :: (M ++ '>' :: B)))
        = ((toL "<fetch" ++ T) ++ (' ' :: 'p' :: 'a' :: 'g' :: 'e' :: '=' :: [dq]))
          ++ v ++ (dq :: (M ++ '>' :: B)) by simp [List.append_assoc]]
    exact splice_drop _ _ _
  rw [htake, hdrop]
  rw [hS7]
  simp [List.append_assoc]

theorem eqpos_tagPC {T v : Str} (e : Str) (hTeq : '=' ∉ T) (hv : ∀ ch ∈ v, ch ∈ numChars) :
    ∀ m, ((toL "<fetch" ++ T) ++ ((attrP v ++ attrC e) ++ ['>']))[m]? = some '=' →
      m = (toL "<fetch" ++ T).length + 5 ∨
      m = (toL "<fetch" ++ T).length + (8 + v.length) + 14 ∨
      (toL "<fetch" ++ T).length + (8 + v.length) + 16 ≤ m := by
  intro m hm
  have hDeq : ('=' : Char) ∉ toL "<fetch" ++ T := by
    intro h
    rcases List.mem_append.1 h with h | h
    · exact absurd h (by decide)
    · exact hTeq h
  by_cases hmD : m < (toL "<fetch" ++ T).length
  · rw [List.getElem?_append, if_pos hmD] at hm
    exact absurd (List.getElem?_mem hm) hDeq
  · push_neg at hmD
    obtain ⟨k, rfl⟩ : ∃ k, m = (toL "<fetch" ++ T).length + k :=
      ⟨m - (toL "<fetch" ++ T).length, by omega⟩
    rw [List.getElem?_append_right (by omega)] at hm
    simp only [Nat.add_sub_cancel_left] at hm
    by_cases hk1 : k < (attrP v ++ attrC e).length
    · rw [List.getElem?_append, if_pos hk1] at hm
      by_cases hk2 : k < (attrP v).length
      · rw [List.getElem?_append, if_pos hk2] at hm
        exact Or.inl (by rw [eqpos_attrP hv k hm])
      · push_neg at hk2
        rw [List.getElem?_append_right hk2] at hm
        rcases eqpos_attrC e _ hm with h | h
        · refine Or.inr (Or.inl ?_)
          rw [attrP_length] at hk2 h
          omega
        · refine Or.inr (Or.inr ?_)
          rw [attrP_length] at hk2 h
          omega
    · push_neg at hk1
      rw [List.getElem?_append_right hk1] at hm
      exfalso
      rcases hgone : k - (attrP v ++ attrC e).length with _ | k2
      · rw [hgone] at hm
        simp at hm
      · rw [hgone] at hm
        simp at hm

theorem find_cookiekey_tagPC {T v : Str} (e : Str) (hTeq : '=' ∉ T)
    (hv : ∀ ch ∈ v, ch ∈ numChars) :
    findSub (toL "paging-cookie" ++ ['='])
        ((toL "<fetch" ++ T) ++ ((attrP v ++ attrC e) ++ ['>']))
      = some ((toL "<fetch" ++ T).length + (8 + v.length) + 1) := by
  refine findSub_eq_some_iff.2 ⟨?_, ?_⟩
  · have hdecomp : (toL "<fetch" ++ T) ++ ((attrP v ++ attrC e) ++ ['>'])
        = ((toL "<fetch" ++ T) ++ (attrP v ++ [' ']))
          ++ ((toL "paging-cookie" ++ ['=']) ++ (dq :: (e ++ (dq :: ['>'])))) := by
      rw [attrC_cons]
      simp [List.append_assoc,
        show toL "paging-cookie"
          = ['p', 'a', 'g', 'i', 'n', 'g', '-', 'c', 'o', 'o', 'k', 'i', 'e'] from by decide]
    rw [hdecomp]
    rw [show (toL "<fetch" ++ T).length + (8 + v.length) + 1
        = ((toL "<fetch" ++ T) ++ (attrP v ++ [' '])).length by
      simp [attrP_length]
      omega]
    rw [List.drop_left]
    exact isPfx_append_self _ _
  · intro j hj
    by_contra hb
    have hpfx : isPfx (toL "paging-cookie" ++ ['='])
        (((toL "<fetch" ++ T) ++ ((attrP v ++ attrC e) ++ ['>'])).drop j) = true := by
      cases hx : isPfx (toL "paging-cookie" ++ ['='])
          (((toL "<fetch" ++ T) ++ ((attrP v ++ attrC e) ++ ['>'])).drop j) with
      | false => exact absurd hx hb
      | true => rfl
    have h13 : ((toL "<fetch" ++ T) ++ ((attrP v ++ attrC e) ++ ['>']))[j + 13]?
        = some '=' := by
      have := isPfx_getElem_abs hpfx (k := 13) (by decide)
      rw [show (toL "paging-cookie" ++ ['='])[13]? = some '=' from by decide] at this
      exact this
    rcases eqpos_tagPC e hTeq hv _ h13 with h | h | h
    · have h11 : ((toL "<fetch" ++ T) ++ ((attrP v ++ attrC e) ++ ['>']))[j + 11]?
          = some 'i' := by
        have := isPfx_getElem_abs hpfx (k := 11) (by decide)
        rw [show (toL "paging-cookie" ++ ['='])[11]? = some 'i' from by decide] at this
        exact this
      have hg : ((toL "<fetch" ++ T) ++ ((attrP v ++ attrC e)
          ++ ['>']))[(toL "<fetch" ++ T).length + 3]? = some 'g' := by
        rw [List.getElem?_append_right (by omega), Nat.add_sub_cancel_left]
        have hb1 : (3 : Nat) < (attrP v ++ attrC e).length := by
          rw [List.length_append, attrP_length]; omega
        have hb2 : (3 : Nat) < (attrP v).length := by rw [attrP_length]; omega
        rw [List.getElem?_append, if_pos hb1, List.getElem?_append, if_pos hb2, attrP_cons]
        simp
      rw [show j + 11 = (toL "<fetch" ++ T).length + 3 by omega, hg] at h11
      simp at h11
    · omega
    · omega

theorem upsert_cookie_replace (T v e B : Str) (hTeq : '=' ∉ T) (hTgt : '>' ∉ T)
    (hv : ∀ ch ∈ v, ch ∈ numChars) (hegt : '>' ∉ e) (hedq : dq ∉ e) :
    upsert_fetch_attr ((toL "<fetch" ++ T) ++ (attrP v ++ attrC e) ++ '>' :: B)
        (toL "paging-cookie") e
      = .ok ((toL "<fetch" ++ T) ++ (attrP v ++ attrC e) ++ '>' :: B) := by
  have h6 : (toL "<fetch").length = 6 := by decide
  have hclen : (toL "paging-cookie").length = 13 := by decide
  have hZgt : '>' ∉ attrP v ++ attrC e := by
    intro hmem
    rcases List.mem_append.1 hmem with hmem | hmem
    · exact attrP_no_gt hv hmem
    · exact attrC_no_gt hegt hmem
  obtain ⟨h1, h2, h3⟩ := fetch_prelude T (attrP v ++ attrC e) B hTgt hZgt
  have h2' : charFind '>' (((toL "<fetch" ++ T) ++ (attrP v ++ attrC e) ++ '>' :: B).drop 0)
      = some (6 + T.length + (attrP v ++ attrC e).length) := by simpa using h2
  have h3' : (((toL "<fetch" ++ T) ++ (attrP v ++ attrC e) ++ '>' :: B).drop 0).take
        (6 + T.length + (attrP v ++ attrC e).length + 1)
      = (toL "<fetch" ++ T) ++ ((attrP v ++ attrC e) ++ ['>']) := by
    simpa [List.append_assoc] using h3
  have hP16 : (toL "<fetch" ++ T) ++ ((attrP v ++ attrC e) ++ ['>'])
      = ((toL "<fetch" ++ T) ++ (attrP v ++ (' ' :: 'p' :: 'a' :: 'g' :: 'i' :: 'n' :: 'g'
          :: '-' :: 'c' :: 'o' :: 'o' :: 'k' :: 'i' :: 'e' :: '=' :: [dq])))
        ++ (e ++ (dq :: ['>'])) := by
    rw [attrC_cons]
    simp [List.append_assoc]
  have hS16 : (toL "<fetch" ++ T) ++ (attrP v ++ attrC e) ++ '>' :: B
      = ((toL "<fetch" ++ T) ++ (attrP v ++ (' ' :: 'p' :: 'a' :: 'g' :: 'i' :: 'n' :: 'g'
          :: '-' :: 'c' :: 'o' :: 'o' :: 'k' :: 'i' :: 'e' :: '=' :: [dq])))
        ++ (e ++ (dq :: ('>' :: B))) := by
    rw [attrC_cons]
    simp [List.append_assoc]
  have hP16len : ((toL "<fetch" ++ T) ++ (attrP v ++ (' ' :: 'p' :: 'a' :: 'g' :: 'i' :: 'n'
        :: 'g' :: '-' :: 'c' :: 'o' :: 'o' :: 'k' :: 'i' :: 'e' :: '=' :: [dq]))).length
      = (toL "<fetch" ++ T).length + (8 + v.length) + 16 := by
    simp [attrP_length]
    omega
  have hqc : ((toL "<fetch" ++ T) ++ ((attrP v ++ attrC e)
      ++ ['>']))[(toL "<fetch" ++ T).length + (8 + v.length) + 15]? = some dq := by
    rw [List.getElem?_append_right (by omega)]
    rw [show (toL "<fetch" ++ T).length + (8 + v.length) + 15 - (toL "<fetch" ++ T).length
        = (8 + v.length) + 15 by omega]
    have hb1 : (8 + v.length) + 15 < (attrP v ++ attrC e).length := by
      rw [List.length_append, attrP_length, attrC_length]; omega
    rw [List.getElem?_append, if_pos hb1]
    rw [List.getElem?_append_right (by rw [attrP_length]; omega)]
    rw [show (8 + v.length) + 15 - (attrP v).length = 15 by rw [attrP_length]; omega]
    rw [attrC_cons]
    simp
  have he16 : charFind dq
      (((toL "<fetch" ++ T) ++ ((attrP v ++ attrC e) ++ ['>'])).drop
        ((toL "<fetch" ++ T).length + (8 + v.length) + 16))
      = some e.length := by
    rw [hP16, ← hP16len, List.drop_left, charFind_append_of_not_mem _ hedq, charFind_cons_self]
    simp
  have hup := upsert_unfold_replace ((toL "<fetch" ++ T) ++ (attrP v ++ attrC e) ++ '>' :: B)
    (toL "paging-cookie") e 0 (6 + T.length + (attrP v ++ attrC e).length)
    ((toL "<fetch" ++ T).length + (8 + v.length) + 1) dq e.length h1 h2'
    (by rw [h3']; exact find_cookiekey_tagPC e hTeq hv)
    (by rw [h3', hclen, show (toL "<fetch" ++ T).length + (8 + v.length) + 1 + (13 + 1)
          = (toL "<fetch" ++ T).length + (8 + v.length) + 15 by omega]
        exact hqc)
    (Or.inl rfl)
    (by rw [h3', hclen, show (toL "<fetch" ++ T).length + (8 + v.length) + 1 + (13 + 1) + 1
          = (toL "<fetch" ++ T).length + (8 + v.length) + 16 by omega]
        exact he16)
  rw [hup, hclen]
  have htake : ((toL "<fetch" ++ T) ++ (attrP v ++ attrC e) ++ '>' :: B).take
        (0 + ((toL "<fetch" ++ T).length + (8 + v.length) + 1 + (13 + 1) + 1))
      = (toL "<fetch" ++ T) ++ (attrP v ++ (' ' :: 'p' :: 'a' :: 'g' :: 'i' :: 'n' :: 'g'
          :: '-' :: 'c' :: 'o' :: 'o' :: 'k' :: 'i' :: 'e' :: '=' :: [dq])) := by
    rw [hS16, show 0 + ((toL "<fetch" ++ T).length + (8 + v.length) + 1 + (13 + 1) + 1)
        = ((toL "<fetch" ++ T) ++ (attrP v ++ (' ' :: 'p' :: 'a' :: 'g' :: 'i' :: 'n' :: 'g'
            :: '-' :: 'c' :: 'o' :: 'o' :: 'k' :: 'i' :: 'e' :: '=' :: [dq]))).length by
      rw [hP16len]; omega]
    exact List.take_left _ _
  have hdrop : ((toL "<fetch" ++ T) ++ (attrP v ++ attrC e) ++ '>' :: B).drop
        (0 + (e.length + ((toL "<fetch" ++ T).length + (8 + v.length) + 1 + (13 + 1) + 1)))
      = dq :: ('>' :: B) := by
    rw [hS16]
    rw [show 0 + (e.length + ((toL "<fetch" ++ T).length + (8 + v.length) + 1 + (13 + 1) + 1))
        = ((toL "<fetch" ++ T) ++ (attrP v ++ (' ' :: 'p' :: 'a' :: 'g' :: 'i' :: 'n' :: 'g'
            :: '-' :: 'c' :: 'o' :: 'o' :: 'k' :: 'i' :: 'e' :: '=' :: [dq]))).length
          + e.length by rw [hP16len]; omega]
    rw [show ((toL "<fetch" ++ T) ++ (attrP v ++ (' ' :: 'p' :: 'a' :: 'g' :: 'i' :: 'n' :: 'g'
          :: '-' :: 'c' :: 'o' :: 'o' :: 'k' :: 'i' :: 'e' :: '=' :: [dq])))
          ++ (e ++ (dq :: ('>' :: B)))
        = ((toL "<fetch" ++ T) ++ (attrP v ++ (' ' :: 'p' :: 'a' :: 'g' :: 'i' :: 'n' :: 'g'
            :: '-' :: 'c' :: 'o' :: 'o' :: 'k' :: 'i' :: 'e' :: '=' :: [dq])))
          ++ e ++ (dq :: ('>' :: B)) by simp [List.append_assoc]]
    exact splice_drop _ _ _
  rw [htake, hdrop]
  rw [hS16]
  simp [List.append_assoc]

/-- Unfolding of `apply_paging` into explicit matches. -/
theorem apply_paging_unfold (q : Str) (p : Int) (c : Option Str) :
    apply_paging q p c
      = match upsert_fetch_attr q (toL "page") (intToL p) with
        | .error e => .error e
        | .ok updated =>
          match c with
          | none => .ok updated
          | some cookie =>
            upsert_fetch_attr updated (toL "paging-cookie") (escape_xml_attribute cookie) := by
  unfold apply_paging
  cases h : upsert_fetch_attr q (toL "page") (intToL p) <;> cases c <;> rfl

/-- C6 counterexample: apply_paging is not idempotent in general.  For the
query `<fetch paging-cookie="page='z'">` and the cookie `page=5`, the
first application succeeds (it rewrites the attribute-like text embedded
in the cookie value and then replaces the cookie value), but re-applying
the very same arguments to the result fails with an invalid-attribute
error, because the first occurrence of `page=` in the rewritten tag now
sits inside the cookie value with no quote character after it. -/
theorem claim_C6_counterexample :
    apply_paging (toL "<fetch paging-cookie=\"page=" ++ [sq, 'z', sq] ++ toL "\">") 2
        (some (toL "page=5"))
      = .ok (toL "<fetch paging-cookie=\"page=5\">") ∧
    apply_paging (toL "<fetch paging-cookie=\"page=5\">") 2 (some (toL "page=5"))
      = .error (.invalidAttr (toL "page")) := by
  refine ⟨by decide, by decide⟩

/-- C6 (amended): apply_paging is idempotent on every query whose root
fetch tag contains no attribute-like text: for a query
`<fetch` ++ T ++ `>` ++ B where T contains neither `=` nor `>`, every
page number and every optional cookie, the first application succeeds and
re-applying the same arguments returns the same string unchanged (the
second application replaces the attribute values in place and inserts no
duplicates).  On adversarial queries that embed `page=`/`paging-cookie=`
text inside attribute values idempotence can fail, as the counterexample
shows. -/
theorem claim_C6_idempotent_on_plain_tags (T B : Str) (page : Int) (c : Option Str)
    (hTeq : '=' ∉ T) (hTgt : '>' ∉ T) :
    ∃ r, apply_paging (toL "<fetch" ++ T ++ '>' :: B) page c = .ok r ∧
         apply_paging r page c = .ok r := by
  have hv : ∀ ch ∈ intToL page, ch ∈ numChars := fun ch h => mem_intToL h
  have hsubj : toL "<fetch" ++ T ++ '>' :: B = (toL "<fetch" ++ T) ++ '>' :: B := by
    simp [List.append_assoc]
  cases c with
  | none =>
    refine ⟨(toL "<fetch" ++ T) ++ attrP (intToL page) ++ '>' :: B, ?_, ?_⟩
    · rw [hsubj, apply_paging_unfold, upsert_page_insert T B (intToL page) hTeq hTgt]
    · have hrep := upsert_page_replace T (intToL page) [] B hTeq hTgt hv (by simp)
      simp only [List.append_nil] at hrep
      rw [apply_paging_unfold, hrep]
  | some ck =>
    refine ⟨(toL "<fetch" ++ T) ++ attrP (intToL page)
        ++ attrC (escape_xml_attribute ck) ++ '>' :: B, ?_, ?_⟩
    · rw [hsubj, apply_paging_unfold, upsert_page_insert T B (intToL page) hTeq hTgt]
      exact upsert_cookie_insert T B (intToL page) (escape_xml_attribute ck) hTeq hTgt hv
    · have hegt := escape_no_gt ck
      have hedq := escape_no_dq ck
      have hrep1 := upsert_page_replace T (intToL page) (attrC (escape_xml_attribute ck)) B
        hTeq hTgt hv (attrC_no_gt hegt)
      have hrep2 := upsert_cookie_replace T (intToL page) (escape_xml_attribute ck) B
        hTeq hTgt hv hegt hedq
      simp only [List.append_assoc] at hrep1 hrep2
      rw [apply_paging_unfold]
      simp only [List.append_assoc]
      rw [hrep1]
      exact hrep2

/-- C6 witness: idempotence at a concrete clean query, page and cookie. -/
theorem claim_C6_witness :
    ∃ r, apply_paging (toL "<fetch" ++ toL " distinct" ++ '>' :: toL "</fetch>") 2
        (some (toL "C1")) = .ok r ∧
      apply_paging r 2 (some (toL "C1")) = .ok r :=
  claim_C6_idempotent_on_plain_tags (toL " distinct") (toL "</fetch>") 2 (some (toL "C1"))
    (by decide) (by decide)

end PPDV
